import Mathlib

/-!
# Formal model of the book-index re-organizer

A shallow embedding of the extraction-and-mapping pipeline:

* `src/src/map_and_sort.py` — reference resolution (`map_and_sort_epub`,
  `map_and_sort_pdf`) and the appearance reducer (`_first_appearance_by_chapter`);
* `src/src/extract_epub.py` — page-token normalization (`_normalize_page`);
* `src/src/structure_index.py` — JSON extraction from a noisy collaborator
  response (`_extract_json_from_response`) and the post-processing of the
  structured records (`structure_index_with_llm` / `structure_toc_with_llm`).

Python strings are modelled by `String`, Python ints by `Int` (or `Nat` where
the source only ever produces non-negative values), Python dicts by association
lists with insertion semantics (later bindings shadow earlier ones), and Python
exceptions by `Except String`.  All definitions are executable.
-/

/-! ## Python string primitives, modelled over `List Char` -/

/-- The whitespace characters removed by `str.strip()`. -/
def isPyWs (c : Char) : Bool :=
  c = ' ' || c = '\t' || c = '\n' || c = '\r' || c = '\x0b' || c = '\x0c'

/-- Model of `str.strip()` on a character list. -/
def pyStripChars (cs : List Char) : List Char :=
  ((cs.dropWhile isPyWs).reverse.dropWhile isPyWs).reverse

/-- Model of `str.strip()`. -/
def pyStrip (s : String) : String := ⟨pyStripChars s.data⟩

/-- Model of `str.lower()` on the ASCII range (the only range the source feeds it). -/
def lowerChar (c : Char) : Char :=
  if 65 ≤ c.toNat ∧ c.toNat ≤ 90 then Char.ofNat (c.toNat + 32) else c

/-- Model of `str.lower()`. -/
def pyLower (s : String) : String := ⟨s.data.map lowerChar⟩

/-- ASCII digit test (Python's `\d` restricted to ASCII, the range the
source's page tokens use). -/
def isDigitChar (c : Char) : Bool := 48 ≤ c.toNat ∧ c.toNat ≤ 57

/-- Value of a big-endian ASCII digit string, `0` when empty: the combined
effect of `int(x or "0") or 0` on a digits-only string `x`. -/
def natOfDigits (ds : List Char) : Nat :=
  ds.foldl (fun n c => n * 10 + (c.toNat - 48)) 0

/-- Decimal rendering of a natural number (the model of Python `str(n)`). -/
def natStrGo : Nat → Nat → List Char
  | 0, _ => []
  | fuel + 1, n =>
    if n < 10 then [Char.ofNat (n + 48)]
    else natStrGo fuel (n / 10) ++ [Char.ofNat (n % 10 + 48)]

/-- Decimal rendering of a natural number. -/
def natStr (n : Nat) : String := ⟨natStrGo (n + 1) n⟩

/-- Python `str()` of an `int`. -/
def intStr : Int → String
  | .ofNat n => natStr n
  | .negSucc n => ⟨'-' :: (natStr (n + 1)).data⟩

/-- Code-point lexicographic strict comparison of character lists: how Python
compares two `str` values. -/
def charsLt : List Char → List Char → Bool
  | [], [] => false
  | [], _ :: _ => true
  | _ :: _, [] => false
  | c :: cs, d :: ds =>
    if c.toNat = d.toNat then charsLt cs ds
    else decide (c.toNat < d.toNat)

/-- The last path component, as `pathlib.Path(s).name` behaves on the
`href` strings an EPUB contains. -/
def pathBasename (s : String) : String :=
  ⟨(((s.data.splitOnP (fun c => c = '/')).filter (fun p => p ≠ [])).getLastD [])⟩

/-- Lookup in a Python dict modelled as an association list built by
insertion: a later binding for the same key shadows an earlier one, so the
last matching pair wins. -/
def dictGet {v : Type} (d : List (String × v)) (k : String) : Option v :=
  (d.reverse.find? (fun p => decide (p.1 = k))).map (fun p => p.2)

/-! ## Sort keys

Python's `sorted(key=...)` compares key tuples lexicographically.  The reducer
sorts rows by `(chapter_order, start_page, term, subentry)` and the entries of
a chapter by `(start_page, term, subentry)`; both are instances of the
four-component key below (the chapter sort uses a constant first component).
`sorted` is a stable sort, and any two stable sorts by the same key agree,
so `List.insertionSort` (which is stable) models it exactly. -/

/-- A sort-key tuple `(order, page, term, subentry)`. -/
def SortKey : Type := Nat × Int × List Char × List Char

/-- Strict lexicographic comparison of key tuples, as Python compares the
tuples produced by the sort `key=` functions. -/
def keyLt : SortKey → SortKey → Bool
  | (o₁, s₁, t₁, u₁), (o₂, s₂, t₂, u₂) =>
    decide (o₁ < o₂) ||
      (decide (o₁ = o₂) &&
        (decide (s₁ < s₂) ||
          (decide (s₁ = s₂) &&
            (charsLt t₁ t₂ || (decide (t₁ = t₂) && charsLt u₁ u₂)))))

/-- Non-strict comparison: `a` may be placed before `b`. -/
def keyLe (a b : SortKey) : Bool := !(keyLt b a)

/-! ## Data model of `map_and_sort.py` -/

/-- A page reference as it reaches `map_and_sort`: a 2-tuple
`(file_basename, page)` or a 3-tuple `(file_basename, start, end)`.  On the
PDF path the file component is ignored. -/
inductive Ref where
  | pair (base : String) (page : Int) : Ref
  | triple (base : String) (start stop : Int) : Ref
deriving DecidableEq

/-- The file component of a reference. -/
def Ref.base : Ref → String
  | .pair b _ => b
  | .triple b _ _ => b

/-- The start page of a reference (`start, end = page, page` for a 2-tuple). -/
def Ref.start : Ref → Int
  | .pair _ p => p
  | .triple _ s _ => s

/-- The end page of a reference. -/
def Ref.stop : Ref → Int
  | .pair _ p => p
  | .triple _ _ e => e

/-- One raw index entry `{term, subentry, refs}`. -/
structure IndexEntry where
  term : String
  subentry : String
  refs : List Ref
deriving DecidableEq

/-- An EPUB table-of-contents entry `{title, href, file_basename}`
as produced by `_parse_ncx`. -/
structure EpubTocEntry where
  title : String
  href : String
  base : String
deriving DecidableEq

/-- A PDF table-of-contents entry `{name, start_page, end_page}`. -/
structure PdfTocEntry where
  name : String
  startPage : Int
  endPage : Int
deriving DecidableEq

/-- One exploded row
`(term, subentry, chapter, start_page, chapter_order, subheading, page_display)`. -/
structure Row where
  term : String
  subentry : String
  chapter : String
  start : Int
  order : Nat
  subheading : String
  pageDisplay : String
deriving DecidableEq

/-- A surviving first occurrence
`(term, subentry, chapter, start_page, subheading, page_display)`. -/
structure Occ where
  term : String
  subentry : String
  chapter : String
  start : Int
  subheading : String
  pageDisplay : String
deriving DecidableEq

/-- An output entry `{term, subentry, page, subheading}` (the internal
`_sort_page` key is deleted before output). -/
structure DisplayEntry where
  term : String
  subentry : String
  page : String
  subheading : String
deriving DecidableEq

/-- An output group `{chapter_name, entries}`. -/
structure ChapterGroup where
  chapter_name : String
  entries : List DisplayEntry
deriving DecidableEq

/-- The reducer's sort key `(chapter_order, start_page, term, subentry)`. -/
def rowKey (r : Row) : SortKey := (r.order, r.start, r.term.data, r.subentry.data)

/-- Comparison used to sort rows. -/
def rowLeB (a b : Row) : Bool := keyLe (rowKey a) (rowKey b)

/-- The sort relation on rows, as a decidable proposition. -/
def rowRel (a b : Row) : Prop := rowLeB a b = true

/-- The within-chapter sort key `(start_page, term, subentry)` (constant
first component). -/
def occKey (o : Occ) : SortKey := (0, o.start, o.term.data, o.subentry.data)

/-- Comparison used to sort the entries of one chapter. -/
def occLeB (a b : Occ) : Bool := keyLe (occKey a) (occKey b)

/-- The within-chapter sort relation, as a decidable proposition. -/
def occRel (a b : Occ) : Prop := occLeB a b = true

instance : DecidableRel rowRel := fun a b => inferInstanceAs (Decidable (rowLeB a b = true))

instance : DecidableRel occRel := fun a b => inferInstanceAs (Decidable (occLeB a b = true))

/-! ## `map_and_sort.py` -/

/-- Model of `_page_display`: format a page as `"120"` or `"120-125"`. -/
def page_display (start stop : Int) : String :=
  if start = stop then intStr start else intStr start ++ "-" ++ intStr stop

/-- The breakpoint scan of `_subheading_for_ref`: walk the `(page, subheading)`
list, remembering the last breakpoint at or before the page, stopping at the
first breakpoint beyond it. -/
def subheadingScan (page : Int) (cur : String) : List (Int × String) → String
  | [] => cur
  | (p, s) :: rest => if p ≤ page then subheadingScan page s rest else cur

/-- Model of `_subheading_for_ref`: the subheading for `(file_basename, page)`, or `""`
when no subheading index was supplied (or it is empty, which is also falsy). -/
def subheading_for_ref (base : String) (page : Int)
    (subIdx : Option (List (String × List (Int × String)))) : String :=
  match subIdx with
  | none => ""
  | some d =>
    if d = [] then ""
    else subheadingScan page "" ((dictGet d base).getD [])

/-- The `basename_to_order` dict: iterate the spine hrefs with their index,
inserting each basename the first time it is seen. -/
def basenameToOrderGo (acc : List (String × Nat)) (i : Nat) :
    List String → List (String × Nat)
  | [] => acc
  | href :: rest =>
    let base := pathBasename href
    basenameToOrderGo
      (if (acc.find? (fun p => decide (p.1 = base))).isSome then acc
       else acc ++ [(base, i)])
      (i + 1) rest

/-- The dict `basename_to_order` built from the spine. -/
def basenameToOrder (spine_hrefs : List String) : List (String × Nat) :=
  basenameToOrderGo [] 0 spine_hrefs

/-- The `file_to_chapter` dict built by `extract_epub`:
`{e["file_basename"]: e["title"] for e in toc}`. -/
def fileToChapterOf (toc : List EpubTocEntry) : List (String × String) :=
  toc.map (fun e => (e.base, e.title))

/-- Resolution of one EPUB reference into a row: chapter name from the
`file_to_chapter` dict (default `"Other"`), chapter order from the spine
dict (default `9999`), subheading from the breakpoint index. -/
def resolveEpubRef (file_to_chapter : List (String × String))
    (spineDict : List (String × Nat))
    (subIdx : Option (List (String × List (Int × String))))
    (term subentry : String) (r : Ref) : Row :=
  { term := term
    subentry := subentry
    chapter := (dictGet file_to_chapter r.base).getD "Other"
    start := r.start
    order := (dictGet spineDict r.base).getD 9999
    subheading := subheading_for_ref r.base r.start subIdx
    pageDisplay := page_display r.start r.stop }

/-- The row-building loop of `map_and_sort_epub`: one row per reference,
except that a reference with an empty (falsy) file basename is skipped
(`if not file_basename: continue`). -/
def epubRows (spine_hrefs : List String)
    (file_to_chapter : List (String × String))
    (index_entries : List IndexEntry)
    (subIdx : Option (List (String × List (Int × String)))) : List Row :=
  index_entries.flatMap (fun it =>
    ((it.refs.filter (fun r => decide (r.base ≠ ""))).map
      (resolveEpubRef file_to_chapter (basenameToOrder spine_hrefs) subIdx
        (pyStrip it.term) (pyStrip it.subentry))))

/-- The chapter-search loop of `map_and_sort_pdf`: the first TOC entry whose
`[start_page, end_page]` range contains the page, with its index; the
fallback is `("Other", 9999)`. -/
def findPdfChapter (start : Int) : List PdfTocEntry → Nat → String × Nat
  | [], _ => ("Other", 9999)
  | ch :: rest, i =>
    if ch.startPage ≤ start ∧ start ≤ ch.endPage then (ch.name, i)
    else findPdfChapter start rest (i + 1)

/-- Resolution of one PDF reference into a row (no subheading). -/
def resolvePdfRef (toc : List PdfTocEntry) (term subentry : String) (r : Ref) : Row :=
  { term := term
    subentry := subentry
    chapter := (findPdfChapter r.start toc 0).1
    start := r.start
    order := (findPdfChapter r.start toc 0).2
    subheading := ""
    pageDisplay := page_display r.start r.stop }

/-- The row-building loop of `map_and_sort_pdf`: one row per reference,
unconditionally. -/
def pdfRows (toc : List PdfTocEntry) (index_entries : List IndexEntry) : List Row :=
  index_entries.flatMap (fun it =>
    it.refs.map (resolvePdfRef toc (pyStrip it.term) (pyStrip it.subentry)))

/-- Projection of a kept row to a surviving occurrence (dropping the
chapter-order component, as the source's `first_occurrences` tuples do). -/
def occOf (r : Row) : Occ :=
  { term := r.term, subentry := r.subentry, chapter := r.chapter,
    start := r.start, subheading := r.subheading, pageDisplay := r.pageDisplay }

/-- The first-appearance filter: keep a row's `(term, subentry)` pair the
first time it is seen, tracked by the `seen` set. -/
def firstOccGo (seen : List (String × String)) : List Row → List Occ
  | [] => []
  | r :: rs =>
    if (r.term, r.subentry) ∈ seen then firstOccGo seen rs
    else occOf r :: firstOccGo ((r.term, r.subentry) :: seen) rs

/-- The `chapter_order` list: chapter names in the order they are first
encountered among the surviving occurrences. -/
def firstNamesGo (acc : List String) : List Occ → List String
  | [] => acc
  | o :: os =>
    firstNamesGo (if o.chapter ∈ acc then acc else acc ++ [o.chapter]) os

/-- Projection of a surviving occurrence to an output entry (dropping the
internal `_sort_page` field). -/
def toDisplay (o : Occ) : DisplayEntry :=
  { term := o.term, subentry := o.subentry, page := o.pageDisplay,
    subheading := o.subheading }

/-- The `rows_sorted` stage: a stable sort by
`(chapter_order, start_page, term, subentry)`. -/
def sortedRows (rows : List Row) : List Row := rows.insertionSort rowRel

/-- The `first_occurrences` stage: first row per `(term, subentry)` in sorted
order. -/
def survivors (rows : List Row) : List Occ := firstOccGo [] (sortedRows rows)

/-- The `chapter_order` stage: chapter names in first-encounter order. -/
def chapterNames (occs : List Occ) : List String := firstNamesGo [] occs

/-- The `chapter_entries[ch]` stage before sorting: the survivors that
resolved to chapter `ch`, in survivor order. -/
def chapterCluster (occs : List Occ) (ch : String) : List Occ :=
  occs.filter (fun o => decide (o.chapter = ch))

/-- Model of `_first_appearance_by_chapter`: stable-sort the rows by
`(chapter_order, start_page, term, subentry)`, keep the first occurrence per
`(term, subentry)`, group by chapter name in first-encounter order (the
`if ch in chapter_entries` guard of the final comprehension is the `any`
filter), and sort each chapter's entries by `(start_page, term, subentry)`. -/
def first_appearance_by_chapter (rows : List Row) : List ChapterGroup :=
  if rows = [] then []
  else
    ((chapterNames (survivors rows)).filter
        (fun ch => (survivors rows).any (fun o => decide (o.chapter = ch)))).map
      (fun ch =>
        { chapter_name := ch
          entries :=
            (((chapterCluster (survivors rows) ch).insertionSort occRel).map
              toDisplay) })

/-- Model of `map_and_sort_epub` (the `toc` parameter is accepted but unused, as in
the source). -/
def map_and_sort_epub (_toc : List EpubTocEntry) (spine_hrefs : List String)
    (file_to_chapter : List (String × String))
    (index_entries : List IndexEntry)
    (subIdx : Option (List (String × List (Int × String)))) : List ChapterGroup :=
  first_appearance_by_chapter (epubRows spine_hrefs file_to_chapter index_entries subIdx)

/-- Model of `map_and_sort_pdf`. -/
def map_and_sort_pdf (toc : List PdfTocEntry) (index_entries : List IndexEntry) :
    List ChapterGroup :=
  first_appearance_by_chapter (pdfRows toc index_entries)

/-- All entries of a grouped index, in listing order. -/
def allEntries (gs : List ChapterGroup) : List DisplayEntry :=
  gs.flatMap (fun g => g.entries)

/-! ## `extract_epub.py`: page-token normalization -/

/-- The `ROMAN_TO_INT` table of `extract_epub.py`, in source order. -/
def ROMAN_TO_INT : List (String × Nat) :=
  [("i", 1), ("ii", 2), ("iii", 3), ("iv", 4), ("v", 5), ("vi", 6), ("vii", 7),
   ("viii", 8), ("ix", 9), ("x", 10), ("xi", 11), ("xii", 12), ("xiii", 13),
   ("xiv", 14), ("xv", 15), ("xvi", 16), ("xvii", 17), ("xviii", 18),
   ("xix", 19), ("xx", 20)]

/-- Model of `_normalize_page`: strip and lower-case the token, look it up in the
roman-numeral table, else delete every non-digit character and read the rest
as an integer (`0` when nothing remains; the digits-only string always parses,
so the `except ValueError` branch of the source is unreachable). -/
def normalize_page (page_str : String) : Nat :=
  let t := pyLower (pyStrip page_str)
  match dictGet ROMAN_TO_INT t with
  | some n => n
  | none => natOfDigits (t.data.filter isDigitChar)

/-! ## `structure_index.py`: the JSON value model and `json.loads`

`json.loads` of the Python standard library is modelled by a strict
recursive-descent parser over `List Char`.  Integer literals parse to
`Json.num`; literals with a fraction or exponent (and the constants `NaN`,
`Infinity`, `-Infinity` that Python's parser also accepts) are kept as their
lexeme in `Json.numOther` — their floating-point value is never needed by the
claims.  Parsed objects keep their field list; Python's dict construction
(later duplicate keys win) is reproduced by the lookup function. -/

inductive Json where
  | null : Json
  | bool (b : Bool) : Json
  | num (n : Int) : Json
  | numOther (lexeme : String) : Json
  | str (s : String) : Json
  | arr (elems : List Json) : Json
  | obj (fields : List (String × Json)) : Json

/-- JSON whitespace (the characters `json.loads` skips between tokens). -/
def skipWs : List Char → List Char
  | [] => []
  | c :: rest =>
    if c = ' ' || c = '\t' || c = '\n' || c = '\r' then skipWs rest else c :: rest

/-- Value of one hexadecimal digit. -/
def hexVal (c : Char) : Option Nat :=
  if 48 ≤ c.toNat ∧ c.toNat ≤ 57 then some (c.toNat - 48)
  else if 97 ≤ c.toNat ∧ c.toNat ≤ 102 then some (c.toNat - 87)
  else if 65 ≤ c.toNat ∧ c.toNat ≤ 70 then some (c.toNat - 55)
  else none

/-- JSON string literal body (after the opening quote): ordinary characters,
the one-character escapes, `\uXXXX`, and rejection of unescaped control
characters, as the strict-mode parser behaves. -/
def parseStringBody : Nat → List Char → List Char → Option (String × List Char)
  | 0, _, _ => none
  | fuel + 1, acc, cs =>
    match cs with
    | [] => none
    | c :: rest =>
      if c = '"' then some (⟨acc.reverse⟩, rest)
      else if c = '\\' then
        match rest with
        | [] => none
        | e :: rest₂ =>
          if e = '"' then parseStringBody fuel ('"' :: acc) rest₂
          else if e = '\\' then parseStringBody fuel ('\\' :: acc) rest₂
          else if e = '/' then parseStringBody fuel ('/' :: acc) rest₂
          else if e = 'b' then parseStringBody fuel ('\x08' :: acc) rest₂
          else if e = 'f' then parseStringBody fuel ('\x0c' :: acc) rest₂
          else if e = 'n' then parseStringBody fuel ('\n' :: acc) rest₂
          else if e = 'r' then parseStringBody fuel ('\r' :: acc) rest₂
          else if e = 't' then parseStringBody fuel ('\t' :: acc) rest₂
          else if e = 'u' then
            match rest₂ with
            | h₁ :: h₂ :: h₃ :: h₄ :: rest₃ =>
              match hexVal h₁, hexVal h₂, hexVal h₃, hexVal h₄ with
              | some a, some b, some c₁, some d =>
                parseStringBody fuel
                  (Char.ofNat (((a * 16 + b) * 16 + c₁) * 16 + d) :: acc) rest₃
              | _, _, _, _ => none
            | _ => none
          else none
      else if c.toNat < 32 then none
      else parseStringBody fuel (c :: acc) rest

/-- The optional fraction part `.digits` of a number literal; returns the
consumed characters (empty when absent) and the rest. -/
def parseFracPart (cs : List Char) : List Char × List Char :=
  match cs with
  | '.' :: d :: rest =>
    if isDigitChar d then
      let (ds, r) := (d :: rest).span (fun c => isDigitChar c)
      ('.' :: ds, r)
    else ([], cs)
  | _ => ([], cs)

/-- The optional exponent part `[eE][+-]?digits` of a number literal. -/
def parseExpPart (cs : List Char) : List Char × List Char :=
  match cs with
  | e :: s :: rest =>
    if e = 'e' ∨ e = 'E' then
      if s = '+' ∨ s = '-' then
        match rest with
        | d :: _ =>
          if isDigitChar d then
            let (ds, r) := rest.span (fun c => isDigitChar c)
            (e :: s :: ds, r)
          else ([], cs)
        | [] => ([], cs)
      else if isDigitChar s then
        let (ds, r) := (s :: rest).span (fun c => isDigitChar c)
        (e :: ds, r)
      else ([], cs)
    else ([], cs)
  | _ => ([], cs)

/-- A JSON number literal: `-? (0 | [1-9][0-9]*) frac? exp?`.  A pure integer
becomes `Json.num`; anything with a fraction or exponent keeps its lexeme. -/
def parseNumberChars (cs : List Char) : Option (Json × List Char) :=
  let (neg, cs₁) :=
    match cs with
    | '-' :: rest => (true, rest)
    | _ => (false, cs)
  match cs₁ with
  | [] => none
  | c :: rest =>
    if ¬ isDigitChar c then none
    else
      let (intDigits, cs₂) :=
        if c = '0' then ([c], rest)
        else (c :: rest).span (fun x => isDigitChar x)
      let (fracChars, cs₃) := parseFracPart cs₂
      let (expChars, cs₄) := parseExpPart cs₃
      if fracChars = [] ∧ expChars = [] then
        some (Json.num (if neg then -(natOfDigits intDigits : Int)
                        else (natOfDigits intDigits : Int)), cs₂)
      else
        some (Json.numOther
                ⟨(if neg then ['-'] else []) ++ intDigits ++ fracChars ++ expChars⟩,
              cs₄)

mutual

/-- One JSON value, dispatched on the first (non-whitespace already skipped)
character. -/
def parseValue : Nat → List Char → Option (Json × List Char)
  | 0, _ => none
  | fuel + 1, cs =>
    match cs with
    | [] => none
    | c :: rest =>
      if c = '[' then
        match skipWs rest with
        | ']' :: r => some (Json.arr [], r)
        | cs₂ =>
          match parseArrayRest fuel cs₂ with
          | some (elems, r) => some (Json.arr elems, r)
          | none => none
      else if c = '\x7b' then
        match skipWs rest with
        | '\x7d' :: r => some (Json.obj [], r)
        | cs₂ =>
          match parseObjRest fuel cs₂ with
          | some (fields, r) => some (Json.obj fields, r)
          | none => none
      else if c = '"' then
        match parseStringBody (rest.length + 1) [] rest with
        | some (s, r) => some (Json.str s, r)
        | none => none
      else if c = 't' then
        if ['r', 'u', 'e'].isPrefixOf rest then some (Json.bool true, rest.drop 3)
        else none
      else if c = 'f' then
        if ['a', 'l', 's', 'e'].isPrefixOf rest then some (Json.bool false, rest.drop 4)
        else none
      else if c = 'n' then
        if ['u', 'l', 'l'].isPrefixOf rest then some (Json.null, rest.drop 3)
        else none
      else if c = 'N' then
        if ['a', 'N'].isPrefixOf rest then some (Json.numOther "NaN", rest.drop 2)
        else none
      else if c = 'I' then
        if ['n', 'f', 'i', 'n', 'i', 't', 'y'].isPrefixOf rest then
          some (Json.numOther "Infinity", rest.drop 7)
        else none
      else if c = '-' ∧ rest.head? = some 'I' then
        if ['I', 'n', 'f', 'i', 'n', 'i', 't', 'y'].isPrefixOf rest then
          some (Json.numOther "-Infinity", rest.drop 8)
        else none
      else parseNumberChars (c :: rest)

/-- The elements of a non-empty array, positioned at the first element. -/
def parseArrayRest : Nat → List Char → Option (List Json × List Char)
  | 0, _ => none
  | fuel + 1, cs =>
    match parseValue fuel cs with
    | none => none
    | some (v, r) =>
      match skipWs r with
      | ',' :: r₂ =>
        match parseArrayRest fuel (skipWs r₂) with
        | some (vs, r₃) => some (v :: vs, r₃)
        | none => none
      | ']' :: r₂ => some ([v], r₂)
      | _ => none

/-- The fields of a non-empty object, positioned at the first key. -/
def parseObjRest : Nat → List Char → Option (List (String × Json) × List Char)
  | 0, _ => none
  | fuel + 1, cs =>
    match cs with
    | '"' :: rest =>
      match parseStringBody (rest.length + 1) [] rest with
      | none => none
      | some (k, r) =>
        match skipWs r with
        | ':' :: r₂ =>
          match parseValue fuel (skipWs r₂) with
          | none => none
          | some (v, r₃) =>
            match skipWs r₃ with
            | ',' :: r₄ =>
              match parseObjRest fuel (skipWs r₄) with
              | some (fields, r₅) => some ((k, v) :: fields, r₅)
              | none => none
            | '\x7d' :: r₄ => some ([(k, v)], r₄)
            | _ => none
        | _ => none
    | _ => none

end

/-- Model of `json.loads`: parse one value and require only whitespace after it.
The fuel bound exceeds the number of parsing steps any input can take. -/
def loads (s : String) : Option Json :=
  match parseValue (4 * s.data.length + 16) (skipWs s.data) with
  | some (v, rest) => if skipWs rest = [] then some v else none
  | none => none

/-! ## `_extract_json_from_response` -/

/-- The backtick character. -/
def backtick : Char := Char.ofNat 96

/-- The fence marker three backticks. -/
def fenceMarker : List Char := [backtick, backtick, backtick]

/-- Python's `sub in s` substring test. -/
def containsSub (sep : List Char) : List Char → Bool
  | [] => sep.isPrefixOf []
  | c :: rest => sep.isPrefixOf (c :: rest) || containsSub sep rest

/-- Python's `s.split(sep)` for a non-empty separator: the chunks between
non-overlapping left-to-right occurrences of `sep`. -/
def splitOnChunksGo (sep : List Char) : Nat → List Char → List Char → List (List Char)
  | 0, cs, cur => [(cur.reverse ++ cs)]
  | fuel + 1, cs, cur =>
    match cs with
    | [] => [cur.reverse]
    | c :: rest =>
      if sep.isPrefixOf (c :: rest) then
        cur.reverse :: splitOnChunksGo sep fuel ((c :: rest).drop sep.length) []
      else splitOnChunksGo sep fuel rest (c :: cur)

/-- Python's `s.split(sep)`. -/
def splitOnChunks (sep cs : List Char) : List (List Char) :=
  splitOnChunksGo sep cs.length cs []

/-- The fenced-block loop: for each chunk between fences, strip it, drop a
leading `json` tag, and if it starts with `[` try to parse it, moving on to
the next chunk when the parse fails. -/
def tryFencedParts : List (List Char) → Option Json
  | [] => none
  | part :: rest =>
    let p := pyStripChars part
    let p₂ := if ['j', 's', 'o', 'n'].isPrefixOf p then pyStripChars (p.drop 4) else p
    if p₂.head? = some '[' then
      match loads ⟨p₂⟩ with
      | some v => some v
      | none => tryFencedParts rest
    else tryFencedParts rest

/-- The bracket-depth scan: starting at a `[`, accumulate characters until
the depth returns to zero; `none` when the brackets never balance. -/
def bracketScan : Nat → List Char → Nat → List Char → Option (List Char)
  | 0, _, _, _ => none
  | _ + 1, [], _, _ => none
  | fuel + 1, c :: rest, depth, acc =>
    if c = '[' then bracketScan fuel rest (depth + 1) (c :: acc)
    else if c = ']' then
      if depth = 1 then some ((c :: acc).reverse)
      else bracketScan fuel rest (depth - 1) (c :: acc)
    else bracketScan fuel rest depth (c :: acc)

/-- Model of `_extract_json_from_response`: strip the text; when it contains a fence,
try each fenced chunk that looks like an array; then try a direct parse of
the whole text (whose result is returned as-is, array or not); then parse
the bracket-balanced substring starting at the first `[`; otherwise (or when
that candidate fails to parse) return the empty list. -/
def extract_json_from_response (text₀ : String) : Json :=
  let text := pyStrip text₀
  let fenced :=
    if containsSub fenceMarker text.data then
      tryFencedParts (splitOnChunks fenceMarker text.data)
    else none
  match fenced with
  | some v => v
  | none =>
    match loads text with
    | some v => v
    | none =>
      match text.data.dropWhile (fun c => c ≠ '[') with
      | [] => Json.arr []
      | sub =>
        match bracketScan sub.length sub 0 [] with
        | some cand =>
          match loads ⟨cand⟩ with
          | some v => v
          | none => Json.arr []
        | none => Json.arr []

/-! ## Python object semantics for the post-processing of collaborator records -/

/-- Model of `dict.get(k)` on a dict built from a parsed JSON object: Python's dict
construction lets a later duplicate key win, and a missing key yields `None`
(which coincides with JSON `null`). -/
def pyGet (fields : List (String × Json)) (k : String) : Json :=
  match fields.reverse.find? (fun p => decide (p.1 = k)) with
  | some p => p.2
  | none => Json.null

/-- Python truthiness of a parsed JSON value.  For a non-integer number the
mantissa decides (a value such as `0.0e5` is falsy); the non-finite constants
`NaN`/`Infinity` are truthy. -/
def truthy : Json → Bool
  | .null => false
  | .bool b => b
  | .num n => decide (n ≠ 0)
  | .numOther s =>
    (s.data.any (fun c => c = 'N' ∨ c = 'I')) ||
      ((s.data.takeWhile (fun c => c ≠ 'e' ∧ c ≠ 'E')).any
        (fun c => 49 ≤ c.toNat ∧ c.toNat ≤ 57))
  | .str s => decide (s ≠ "")
  | .arr l => !l.isEmpty
  | .obj l => !l.isEmpty

/-- Python `a or b` (short-circuit on a truthy left operand). -/
def pyOr (a b : Json) : Json := if truthy a then a else b

/-- Comma-separated joining for the container cases of `str()`/`repr()`. -/
def joinComma : List String → String
  | [] => ""
  | [s] => s
  | s :: rest => s ++ ", " ++ joinComma rest

mutual

/-- Python `repr()` of a parsed JSON value (string quoting approximated:
embedded quotes are not re-escaped; float rendering keeps the lexeme). -/
def pyRepr : Json → String
  | .null => "None"
  | .bool true => "True"
  | .bool false => "False"
  | .num n => intStr n
  | .numOther s => s
  | .str s => "'" ++ s ++ "'"
  | .arr l => "[" ++ joinComma (pyReprList l) ++ "]"
  | .obj l => "\x7b" ++ joinComma (pyReprFields l) ++ "\x7d"

/-- Python `repr()` of the elements of a list. -/
def pyReprList : List Json → List String
  | [] => []
  | v :: rest => pyRepr v :: pyReprList rest

/-- Python `repr()` of the fields of a dict. -/
def pyReprFields : List (String × Json) → List String
  | [] => []
  | (k, v) :: rest => ("'" ++ k ++ "': " ++ pyRepr v) :: pyReprFields rest

end

/-- Python `str()` of a parsed JSON value. -/
def pyStr : Json → String
  | .str s => s
  | v => pyRepr v

/-- Python `int(s)` on a string: strip whitespace, an optional sign, then
ASCII digits (the underscore and non-ASCII digit forms Python also accepts
are outside the model's input range). -/
def pyIntOfString (s : String) : Except String Int :=
  let t := pyStripChars s.data
  let (neg, ds) :=
    match t with
    | '-' :: rest => (true, rest)
    | '+' :: rest => (false, rest)
    | _ => (false, t)
  if ds ≠ [] ∧ ds.all (fun c => isDigitChar c) then
    .ok (if neg then -(natOfDigits ds : Int) else (natOfDigits ds : Int))
  else .error "ValueError"

/-- Truncation toward zero of a decimal float lexeme
`-? digits (. digits)? ([eE] sign? digits)?`, the value `int()` takes on it. -/
def truncOfLexeme (s : String) : Except String Int :=
  if s.data.any (fun c => c = 'N' ∨ c = 'I') then .error "ValueError"
  else
    let (neg, cs) :=
      match s.data with
      | '-' :: rest => (true, rest)
      | t => (false, t)
    let (ipart, r) := cs.span (fun c => isDigitChar c)
    let (fpart, r₂) :=
      match r with
      | '.' :: t => t.span (fun c => isDigitChar c)
      | _ => ([], r)
    let expv : Int :=
      match r₂ with
      | e :: t =>
        if e = 'e' ∨ e = 'E' then
          match t with
          | '-' :: ds => -(natOfDigits ds : Int)
          | '+' :: ds => (natOfDigits ds : Int)
          | ds => (natOfDigits ds : Int)
        else 0
      | [] => 0
    let scale : Int := expv - (fpart.length : Int)
    let mag : Nat := natOfDigits (ipart ++ fpart)
    let val : Int :=
      if 0 ≤ scale then (mag : Int) * ((10 : Int) ^ scale.toNat)
      else ((mag / 10 ^ (-scale).toNat : Nat) : Int)
    .ok (if neg then -val else val)

/-- Python `int()` of a parsed JSON value (`TypeError` for `None` and the
containers, `ValueError` for a malformed string). -/
def pyInt : Json → Except String Int
  | .num n => .ok n
  | .bool b => .ok (if b then 1 else 0)
  | .str s => pyIntOfString s
  | .numOther s => truncOfLexeme s
  | .null => .error "TypeError"
  | .arr _ => .error "TypeError"
  | .obj _ => .error "TypeError"

/-- Python `x + n` for an int literal `n` (`TypeError` for non-numbers;
float arithmetic is left outside the model and also reported as an error). -/
def pyAddInt (v : Json) (n : Int) : Except String Json :=
  match v with
  | .num m => .ok (.num (m + n))
  | .bool b => .ok (.num ((if b then 1 else 0) + n))
  | _ => .error "TypeError"

/-- Python iteration over a parsed JSON value: a list yields its elements, a
string its characters, a dict its keys in first-insertion order; everything
else raises `TypeError`. -/
def pyIter : Json → Except String (List Json)
  | .arr l => .ok l
  | .str s => .ok (s.data.map (fun c => Json.str ⟨[c]⟩))
  | .obj l => .ok ((l.map (fun p => p.1)).dedup.map Json.str)
  | _ => .error "TypeError"

/-! ## Post-processing of the structured records (`structure_index.py`) -/

/-- One structured index record `{term, subentry, refs}` with `refs` the
`(None, page)` pairs built by `structure_index_with_llm`. -/
structure IdxRec where
  term : String
  subentry : String
  refs : List (Option String × Int)
deriving DecidableEq

/-- One structured TOC record `{name, start_page, end_page}` built by
`structure_toc_with_llm`. -/
structure TocRec where
  name : String
  startPage : Int
  endPage : Int
deriving DecidableEq

/-- The record loop of `structure_index_with_llm` after JSON extraction:
skip non-dicts, read `term`/`title`, `subentry`, and `pages`/`page` with
Python `or` chains, wrap a bare int page, convert the pages, and keep the
record only when the term is truthy. -/
def structure_index_records : List Json → Except String (List IdxRec)
  | [] => .ok []
  | item :: rest =>
    match item with
    | .obj fields => do
      let term := pyOr (pyGet fields "term") (pyOr (pyGet fields "title") (Json.str ""))
      let subentry := pyOr (pyGet fields "subentry") (Json.str "")
      let pages₀ := pyOr (pyGet fields "pages") (pyOr (pyGet fields "page") (Json.arr []))
      let pages₁ :=
        match pages₀ with
        | .num n => Json.arr [Json.num n]
        | .bool b => Json.arr [Json.bool b]
        | v => v
      let elems ← pyIter pages₁
      let pages ← (elems.filter (fun p =>
        match p with
        | Json.null => false
        | _ => true)).mapM pyInt
      let out ← structure_index_records rest
      if truthy term then
        pure ({ term := pyStrip (pyStr term), subentry := pyStrip (pyStr subentry),
                refs := pages.map (fun p => (none, p)) } :: out)
      else pure out
    | _ => structure_index_records rest

/-- The record loop of `structure_toc_with_llm` after JSON extraction: skip
non-dicts, read `name`/`title` and the page fields with Python `or` chains,
infer a missing end page from the next record's start page (or the supplied
last page), and append the record unconditionally — there is no name filter. -/
def structure_toc_records (last_page : Int) : List Json → Except String (List TocRec)
  | [] => .ok []
  | item :: rest =>
    match item with
    | .obj fields => do
      let name := pyOr (pyGet fields "name") (pyOr (pyGet fields "title") (Json.str ""))
      let start := pyOr (pyGet fields "start_page") (pyOr (pyGet fields "start") (Json.num 0))
      let endv₀ := pyOr (pyGet fields "end_page") (pyGet fields "end")
      let endv₁ ←
        match endv₀ with
        | Json.null =>
          match rest.head? with
          | some (Json.obj nextFields) => do
            let chain₁ := pyGet nextFields "start_page"
            let chain ←
              if truthy chain₁ then pure chain₁
              else
                let chain₂ := pyGet nextFields "start"
                if truthy chain₂ then pure chain₂
                else pyAddInt start 1
            pyAddInt chain (-1)
          | some _ => pure Json.null
          | none => pure Json.null
        | v => pure v
      let endv₂ :=
        match endv₁ with
        | Json.null => Json.num last_page
        | v => v
      let s ← pyInt start
      let e ← pyInt endv₂
      let out ← structure_toc_records last_page rest
      pure ({ name := pyStrip (pyStr name), startPage := s, endPage := e } :: out)
    | _ => structure_toc_records last_page rest

/-! ## Spec-side formulations for comparison -/

/-- The roman-numeral tokens recognised by the table. -/
def romanKeys : List String := ROMAN_TO_INT.map (fun p => p.1)

/-- The digit-stripping rule in the spec's words: delete every non-digit
character and read the remaining digit string (most significant first), `0`
when nothing remains. -/
def specDigitsValue (t : String) : Nat :=
  Nat.ofDigits 10 (((t.data.filter isDigitChar).map (fun c => c.toNat - 48)).reverse)

/-- The normalization rule exactly as the claim states it: a token that *is*
one of the (lowercase) roman numerals maps through the table, and *every
other token* digit-strips.  (Deliberately no trimming or lower-casing: the
claim quantifies over raw input strings.) -/
def claim6_as_stated (s : String) : Nat :=
  match ROMAN_TO_INT.find? (fun p => decide (p.1 = s)) with
  | some p => p.2
  | none => specDigitsValue s

/-- The amended normalization rule: first trim and lower-case the token,
then apply the roman table or the digit-stripping rule. -/
def claim6_amended_spec (s : String) : Nat :=
  match ROMAN_TO_INT.find? (fun p => decide (p.1 = pyLower (pyStrip s))) with
  | some p => p.2
  | none => specDigitsValue (pyLower (pyStrip s))

/-! ## Order properties of the sort keys -/

/-- The comparison `charsLt` is irreflexive. -/
theorem charsLt_irrefl : ∀ l : List Char, charsLt l l = false
  | [] => rfl
  | _ :: cs => by simp [charsLt, charsLt_irrefl cs]

/-- Characters with equal code points are equal. -/
theorem char_toNat_inj {c d : Char} (h : c.toNat = d.toNat) : c = d := by
  have h₁ := Char.ofNat_toNat c
  rw [h, Char.ofNat_toNat d] at h₁
  exact h₁.symm

/-- The comparison `charsLt` is transitive. -/
theorem charsLt_trans :
    ∀ a b c : List Char, charsLt a b = true → charsLt b c = true → charsLt a c = true
  | [], [], _, h₁, _ => by simp [charsLt] at h₁
  | _ :: _, [], _, h₁, _ => by simp [charsLt] at h₁
  | [], _ :: _, [], _, h₂ => by simp [charsLt] at h₂
  | [], _ :: _, _ :: _, _, _ => by simp [charsLt]
  | _ :: _, _ :: _, [], _, h₂ => by simp [charsLt] at h₂
  | c :: cs, d :: ds, e :: es, h₁, h₂ => by
    simp only [charsLt] at h₁ h₂ ⊢
    by_cases hcd : c.toNat = d.toNat <;> by_cases hde : d.toNat = e.toNat
    · rw [if_pos hcd] at h₁
      rw [if_pos hde] at h₂
      rw [if_pos (hcd.trans hde)]
      exact charsLt_trans cs ds es h₁ h₂
    · rw [if_pos hcd] at h₁
      rw [if_neg hde] at h₂
      rw [if_neg (hcd ▸ hde), hcd]
      exact h₂
    · rw [if_neg hcd] at h₁
      rw [if_pos hde] at h₂
      rw [if_neg (hde ▸ hcd)]
      rw [hde] at h₁
      exact h₁
    · rw [if_neg hcd] at h₁
      rw [if_neg hde] at h₂
      simp only [decide_eq_true_eq] at h₁ h₂
      rw [if_neg (by omega)]
      simp only [decide_eq_true_eq]
      omega

/-- Totality of the character comparison: distinct lists compare in one
direction. -/
theorem charsLt_connex : ∀ a b : List Char, a = b ∨ charsLt a b = true ∨ charsLt b a = true
  | [], [] => Or.inl rfl
  | [], _ :: _ => Or.inr (Or.inl (by simp [charsLt]))
  | _ :: _, [] => Or.inr (Or.inr (by simp [charsLt]))
  | c :: cs, d :: ds => by
    by_cases h : c.toNat = d.toNat
    · have hc : c = d := char_toNat_inj h
      rcases charsLt_connex cs ds with h₂ | h₂ | h₂
      · exact Or.inl (by rw [hc, h₂])
      · exact Or.inr (Or.inl (by simp only [charsLt, if_pos h]; exact h₂))
      · exact Or.inr (Or.inr (by simp only [charsLt, if_pos h.symm]; exact h₂))
    · rcases Nat.lt_or_ge c.toNat d.toNat with h₂ | h₂
      · refine Or.inr (Or.inl ?_)
        simp only [charsLt, if_neg h, decide_eq_true_eq]
        exact h₂
      · refine Or.inr (Or.inr ?_)
        have h₃ : ¬ d.toNat = c.toNat := fun x => h x.symm
        simp only [charsLt, if_neg h₃, decide_eq_true_eq]
        omega

/-- The comparison `keyLt` is irreflexive. -/
theorem keyLt_irrefl (k : SortKey) : keyLt k k = false := by
  obtain ⟨o, s, t, u⟩ := k
  simp [keyLt, charsLt_irrefl]

/-- The comparison `keyLt` is transitive. -/
theorem keyLt_trans {a b c : SortKey} (h₁ : keyLt a b = true) (h₂ : keyLt b c = true) :
    keyLt a c = true := by
  obtain ⟨o₁, s₁, t₁, u₁⟩ := a
  obtain ⟨o₂, s₂, t₂, u₂⟩ := b
  obtain ⟨o₃, s₃, t₃, u₃⟩ := c
  simp only [keyLt, Bool.or_eq_true, Bool.and_eq_true, decide_eq_true_eq] at h₁ h₂ ⊢
  rcases h₁ with h₁ | ⟨rfl, h₁⟩
  · rcases h₂ with h₂ | ⟨rfl, h₂⟩
    · exact Or.inl (h₁.trans h₂)
    · exact Or.inl h₁
  · rcases h₂ with h₂ | ⟨rfl, h₂⟩
    · exact Or.inl h₂
    · refine Or.inr ⟨rfl, ?_⟩
      rcases h₁ with h₁ | ⟨rfl, h₁⟩
      · rcases h₂ with h₂ | ⟨rfl, h₂⟩
        · exact Or.inl (h₁.trans h₂)
        · exact Or.inl h₁
      · rcases h₂ with h₂ | ⟨rfl, h₂⟩
        · exact Or.inl h₂
        · refine Or.inr ⟨rfl, ?_⟩
          rcases h₁ with h₁ | ⟨rfl, h₁⟩
          · rcases h₂ with h₂ | ⟨rfl, h₂⟩
            · exact Or.inl (charsLt_trans _ _ _ h₁ h₂)
            · exact Or.inl h₁
          · rcases h₂ with h₂ | ⟨rfl, h₂⟩
            · exact Or.inl h₂
            · exact Or.inr ⟨rfl, charsLt_trans _ _ _ h₁ h₂⟩

/-- Totality of the key comparison: distinct keys compare in one direction. -/
theorem keyLt_connex (a b : SortKey) : a = b ∨ keyLt a b = true ∨ keyLt b a = true := by
  obtain ⟨o₁, s₁, t₁, u₁⟩ := a
  obtain ⟨o₂, s₂, t₂, u₂⟩ := b
  by_cases ho : o₁ = o₂
  · subst ho
    by_cases hs : s₁ = s₂
    · subst hs
      rcases charsLt_connex t₁ t₂ with ht | ht | ht
      · subst ht
        rcases charsLt_connex u₁ u₂ with hu | hu | hu
        · subst hu
          exact Or.inl rfl
        · exact Or.inr (Or.inl (by simp [keyLt, charsLt_irrefl, hu]))
        · exact Or.inr (Or.inr (by simp [keyLt, charsLt_irrefl, hu]))
      · exact Or.inr (Or.inl (by simp [keyLt, ht]))
      · exact Or.inr (Or.inr (by simp [keyLt, ht]))
    · rcases lt_or_gt_of_ne hs with h | h
      · exact Or.inr (Or.inl (by simp [keyLt, h]))
      · exact Or.inr (Or.inr (by simp [keyLt, h]))
  · rcases Nat.lt_or_ge o₁ o₂ with h | h
    · exact Or.inr (Or.inl (by simp [keyLt, h]))
    · exact Or.inr (Or.inr (by simp [keyLt]; omega))

/-- Keys that compare below each other in neither direction are equal. -/
theorem keyLt_eq_of_not {a b : SortKey} (hab : keyLt a b = false) (hba : keyLt b a = false) :
    a = b := by
  rcases keyLt_connex a b with h | h | h
  · exact h
  · rw [h] at hab
    exact Bool.noConfusion hab
  · rw [h] at hba
    exact Bool.noConfusion hba

/-- The comparison `keyLe` is reflexive. -/
theorem keyLe_refl (a : SortKey) : keyLe a a = true := by
  simp [keyLe, keyLt_irrefl]

/-- The comparison `keyLe` is total. -/
theorem keyLe_total (a b : SortKey) : keyLe a b = true ∨ keyLe b a = true := by
  simp only [keyLe, Bool.not_eq_true']
  by_cases h₁ : keyLt b a = true
  · by_cases h₂ : keyLt a b = true
    · have h₃ := keyLt_trans h₁ h₂
      rw [keyLt_irrefl] at h₃
      exact Bool.noConfusion h₃
    · exact Or.inr (by simpa using h₂)
  · exact Or.inl (by simpa using h₁)

/-- The comparison `keyLe` is transitive. -/
theorem keyLe_trans {a b c : SortKey} (h₁ : keyLe a b = true) (h₂ : keyLe b c = true) :
    keyLe a c = true := by
  simp only [keyLe, Bool.not_eq_true'] at h₁ h₂ ⊢
  by_cases hca : keyLt c a = true
  · exfalso
    rcases keyLt_connex c b with h | h | h
    · rw [h] at hca
      rw [h₁] at hca
      exact Bool.noConfusion hca
    · rw [h₂] at h
      exact Bool.noConfusion h
    · have h₃ := keyLt_trans h hca
      rw [h₁] at h₃
      exact Bool.noConfusion h₃
  · simpa using hca

/-- Within one chapter the sort key opens with a constant component, so the
comparison forces the `start` components into order (used for the
page-monotonicity claim). -/
theorem occRel_start_le {a b : Occ} (h : occRel a b) : a.start ≤ b.start := by
  by_contra hlt
  push_neg at hlt
  have h₂ : keyLt (occKey b) (occKey a) = true := by
    simp [keyLt, occKey, hlt]
  simp [occRel, occLeB, keyLe, h₂] at h

/-! ## Facts about the reducer stages -/

theorem rowRel_total (a b : Row) : rowRel a b ∨ rowRel b a := keyLe_total _ _

theorem rowRel_trans {a b c : Row} (h₁ : rowRel a b) (h₂ : rowRel b c) : rowRel a c :=
  keyLe_trans h₁ h₂

theorem occRel_total (a b : Occ) : occRel a b ∨ occRel b a := keyLe_total _ _

theorem occRel_trans {a b c : Occ} (h₁ : occRel a b) (h₂ : occRel b c) : occRel a c :=
  keyLe_trans h₁ h₂

theorem rowRel_refl (a : Row) : rowRel a a := keyLe_refl _

/-- The sorted stage is sorted. -/
theorem sortedRows_sorted (rows : List Row) : (sortedRows rows).Pairwise rowRel := by
  haveI : IsTotal Row rowRel := ⟨rowRel_total⟩
  haveI : IsTrans Row rowRel := ⟨fun _ _ _ h₁ h₂ => rowRel_trans h₁ h₂⟩
  exact List.sorted_insertionSort rowRel rows

/-- The sorted stage is a permutation of the input rows. -/
theorem sortedRows_perm (rows : List Row) : List.Perm (sortedRows rows) rows :=
  List.perm_insertionSort rowRel rows

/-- Membership in the sorted stage. -/
theorem mem_sortedRows {rows : List Row} {r : Row} : r ∈ sortedRows rows ↔ r ∈ rows :=
  List.mem_insertionSort rowRel

/-- Every survivor is the projection of some processed row. -/
theorem firstOccGo_sub :
    ∀ (seen : List (String × String)) (l : List Row) (o : Occ),
      o ∈ firstOccGo seen l → ∃ r ∈ l, o = occOf r
  | _, [], _, h => by simp [firstOccGo] at h
  | seen, r :: rs, o, h => by
    by_cases hmem : (r.term, r.subentry) ∈ seen
    · rw [firstOccGo, if_pos hmem] at h
      obtain ⟨r₂, hr₂, ho⟩ := firstOccGo_sub seen rs o h
      exact ⟨r₂, List.mem_cons_of_mem _ hr₂, ho⟩
    · rw [firstOccGo, if_neg hmem] at h
      rcases List.mem_cons.mp h with h₂ | h₂
      · exact ⟨r, List.mem_cons_self _ _, h₂⟩
      · obtain ⟨r₂, hr₂, ho⟩ := firstOccGo_sub _ rs o h₂
        exact ⟨r₂, List.mem_cons_of_mem _ hr₂, ho⟩

/-- Once a pair is in the seen set, no survivor for it is produced. -/
theorem firstOccGo_filter_of_mem {t s : String} :
    ∀ (seen : List (String × String)) (l : List Row), (t, s) ∈ seen →
      (firstOccGo seen l).filter (fun o => decide (o.term = t ∧ o.subentry = s)) = []
  | _, [], _ => by simp [firstOccGo]
  | seen, r :: rs, hmem => by
    by_cases h : (r.term, r.subentry) ∈ seen
    · rw [firstOccGo, if_pos h]
      exact firstOccGo_filter_of_mem seen rs hmem
    · rw [firstOccGo, if_neg h]
      have hne : ¬ (r.term = t ∧ r.subentry = s) := by
        rintro ⟨rfl, rfl⟩
        exact h hmem
      rw [List.filter_cons]
      simp only [occOf, decide_eq_true_eq]
      rw [if_neg (by simpa using hne)]
      exact firstOccGo_filter_of_mem _ rs (List.mem_cons_of_mem _ hmem)

/-- For a pair not yet seen, the survivors for it are exactly the projection
of the first matching row. -/
theorem firstOccGo_filter_of_not_mem {t s : String} :
    ∀ (seen : List (String × String)) (l : List Row), (t, s) ∉ seen →
      (firstOccGo seen l).filter (fun o => decide (o.term = t ∧ o.subentry = s)) =
        ((l.find? (fun r => decide (r.term = t ∧ r.subentry = s))).map occOf).toList
  | _, [], _ => by simp [firstOccGo]
  | seen, r :: rs, hmem => by
    by_cases h : (r.term, r.subentry) ∈ seen
    · rw [firstOccGo, if_pos h]
      have hne : ¬ (r.term = t ∧ r.subentry = s) := by
        rintro ⟨rfl, rfl⟩
        exact hmem h
      rw [List.find?_cons_of_neg _ (by simpa using hne)]
      exact firstOccGo_filter_of_not_mem seen rs hmem
    · rw [firstOccGo, if_neg h]
      by_cases hp : r.term = t ∧ r.subentry = s
      · obtain ⟨rfl, rfl⟩ := hp
        rw [List.find?_cons_of_pos _ (by simp)]
        rw [List.filter_cons_of_pos (by simp [occOf])]
        rw [firstOccGo_filter_of_mem _ rs (List.mem_cons_self _ _)]
        simp
      · rw [List.find?_cons_of_neg _ (by simpa using hp)]
        rw [List.filter_cons_of_neg (by simp only [occOf, decide_eq_true_eq]; simpa using hp)]
        refine firstOccGo_filter_of_not_mem _ rs ?_
        simp only [List.mem_cons, not_or]
        refine ⟨fun hx => hp ?_, hmem⟩
        have h₁ := congrArg Prod.fst hx
        have h₂ := congrArg Prod.snd hx
        exact ⟨h₁.symm, h₂.symm⟩

/-- In a sorted list, the first row satisfying a predicate compares at or
below every row satisfying it. -/
theorem find?_min_of_sorted :
    ∀ {l : List Row}, l.Pairwise rowRel → ∀ {p : Row → Bool} {r : Row},
      l.find? p = some r → ∀ b ∈ l, p b = true → rowLeB r b = true
  | [], _, _, _, h, _, hb, _ => by simp at h
  | x :: xs, hs, p, r, h, b, hb, hpb => by
    by_cases hpx : p x = true
    · rw [List.find?_cons_of_pos _ hpx] at h
      obtain rfl : x = r := by simpa using h
      rcases List.mem_cons.mp hb with rfl | hb₂
      · exact keyLe_refl _
      · exact (List.pairwise_cons.mp hs).1 b hb₂
    · rw [List.find?_cons_of_neg _ hpx] at h
      rcases List.mem_cons.mp hb with rfl | hb₂
      · exact absurd hpb hpx
      · exact find?_min_of_sorted (List.pairwise_cons.mp hs).2 h b hb₂ hpb

/-- Membership in the chapter-name stage. -/
theorem mem_firstNamesGo :
    ∀ (acc : List String) (os : List Occ) (c : String),
      c ∈ firstNamesGo acc os ↔ c ∈ acc ∨ ∃ o ∈ os, o.chapter = c
  | acc, [], c => by simp [firstNamesGo]
  | acc, o :: os, c => by
    by_cases h : o.chapter ∈ acc
    · rw [firstNamesGo, if_pos h, mem_firstNamesGo acc os c]
      constructor
      · rintro (hc | ⟨o₂, ho₂, rfl⟩)
        · exact Or.inl hc
        · exact Or.inr ⟨o₂, List.mem_cons_of_mem _ ho₂, rfl⟩
      · rintro (hc | ⟨o₂, ho₂, rfl⟩)
        · exact Or.inl hc
        · rcases List.mem_cons.mp ho₂ with rfl | h₂
          · exact Or.inl h
          · exact Or.inr ⟨o₂, h₂, rfl⟩
    · rw [firstNamesGo, if_neg h, mem_firstNamesGo _ os c]
      constructor
      · rintro (hc | ⟨o₂, ho₂, rfl⟩)
        · rcases List.mem_append.mp hc with h₂ | h₂
          · exact Or.inl h₂
          · exact Or.inr ⟨o, List.mem_cons_self _ _, (List.mem_singleton.mp h₂).symm⟩
        · exact Or.inr ⟨o₂, List.mem_cons_of_mem _ ho₂, rfl⟩
      · rintro (hc | ⟨o₂, ho₂, rfl⟩)
        · exact Or.inl (List.mem_append_left _ hc)
        · rcases List.mem_cons.mp ho₂ with rfl | h₂
          · exact Or.inl (List.mem_append_right _ (by simp))
          · exact Or.inr ⟨o₂, h₂, rfl⟩

/-- The chapter-name stage never repeats a name. -/
theorem nodup_firstNamesGo :
    ∀ (acc : List String) (os : List Occ), acc.Nodup → (firstNamesGo acc os).Nodup
  | _, [], ha => ha
  | acc, o :: os, ha => by
    by_cases h : o.chapter ∈ acc
    · rw [firstNamesGo, if_pos h]
      exact nodup_firstNamesGo acc os ha
    · rw [firstNamesGo, if_neg h]
      refine nodup_firstNamesGo _ os ?_
      simp [List.nodup_append, ha, h]

/-- Pointwise equal functions give equal flat maps. -/
theorem flatMap_congr_mem {α β : Type} :
    ∀ (names : List α) (f g : α → List β),
      (∀ c ∈ names, f c = g c) → names.flatMap f = names.flatMap g
  | [], _, _, _ => rfl
  | n :: ns, f, g, h => by
    simp only [List.flatMap_cons]
    rw [h n (List.mem_cons_self _ _),
      flatMap_congr_mem ns f g (fun c hc => h c (List.mem_cons_of_mem _ hc))]

/-- Pointwise permutations give permuted flat maps. -/
theorem flatMap_perm_mem {α β : Type} :
    ∀ (names : List α) (f g : α → List β),
      (∀ c ∈ names, List.Perm (f c) (g c)) →
      List.Perm (names.flatMap f) (names.flatMap g)
  | [], _, _, _ => List.Perm.refl _
  | n :: ns, f, g, h => by
    simp only [List.flatMap_cons]
    exact (h n (List.mem_cons_self _ _)).append
      (flatMap_perm_mem ns f g (fun c hc => h c (List.mem_cons_of_mem _ hc)))

/-- Adding one element to the chunk of its own key permutes to consing it to
the whole flat map, provided the key occurs exactly once in the name list. -/
theorem flatMap_if_cons {β : Type} :
    ∀ (names : List String) (c₀ : String), names.Nodup → c₀ ∈ names →
      ∀ (o : β) (g : String → List β),
        List.Perm (names.flatMap (fun c => if c₀ = c then o :: g c else g c))
          (o :: names.flatMap g)
  | [], _, _, hc, _, _ => absurd hc (by simp)
  | n :: ns, c₀, hn, hc, o, g => by
    simp only [List.flatMap_cons]
    by_cases h : c₀ = n
    · subst h
      rw [if_pos rfl]
      have hnot : c₀ ∉ ns := (List.nodup_cons.mp hn).1
      rw [flatMap_congr_mem ns _ g (fun c hcm => by
        rw [if_neg (fun he : c₀ = c => hnot (he ▸ hcm))])]
      exact List.Perm.refl _
    · rw [if_neg h]
      have hc₂ : c₀ ∈ ns := by
        rcases List.mem_cons.mp hc with h₂ | h₂
        · exact absurd h₂ h
        · exact h₂
      refine List.Perm.trans (List.Perm.append_left (g n)
        (flatMap_if_cons ns c₀ (List.nodup_cons.mp hn).2 hc₂ o g)) ?_
      exact List.perm_middle

/-- Distributing the survivors over their chapters' clusters permutes back to
the survivor list. -/
theorem cluster_flatMap_perm :
    ∀ (occs : List Occ) (names : List String), names.Nodup →
      (∀ o ∈ occs, o.chapter ∈ names) →
      List.Perm (names.flatMap (fun c => chapterCluster occs c)) occs
  | [], names, _, _ => by
    rw [flatMap_congr_mem names _ (fun _ => ([] : List Occ)) (fun c _ => by
      simp [chapterCluster])]
    simp
  | o :: os, names, hn, hmem => by
    have hstep : names.flatMap (fun c => chapterCluster (o :: os) c) =
        names.flatMap (fun c => if o.chapter = c then o :: chapterCluster os c
          else chapterCluster os c) := by
      refine flatMap_congr_mem names _ _ (fun c _ => ?_)
      by_cases h : o.chapter = c
      · rw [if_pos h]
        simp [chapterCluster, List.filter_cons, h]
      · rw [if_neg h]
        simp [chapterCluster, List.filter_cons, h]
    rw [hstep]
    refine List.Perm.trans
      (flatMap_if_cons names o.chapter hn (hmem o (List.mem_cons_self _ _)) o _) ?_
    exact List.Perm.cons o (cluster_flatMap_perm os names hn
      (fun o₂ ho₂ => hmem o₂ (List.mem_cons_of_mem _ ho₂)))

/-- The entries of every output group come from input rows. -/
theorem mem_group_entries {rows : List Row} {g : ChapterGroup}
    (hg : g ∈ first_appearance_by_chapter rows) {e : DisplayEntry}
    (he : e ∈ g.entries) : ∃ r ∈ rows, e = toDisplay (occOf r) := by
  rw [first_appearance_by_chapter] at hg
  by_cases hr : rows = []
  · rw [if_pos hr] at hg
    simp at hg
  · rw [if_neg hr] at hg
    obtain ⟨ch, _, rfl⟩ := List.mem_map.mp hg
    simp only at he
    obtain ⟨o, ho, rfl⟩ := List.mem_map.mp he
    have ho₂ : o ∈ chapterCluster (survivors rows) ch :=
      (List.mem_insertionSort occRel).mp ho
    have ho₃ : o ∈ survivors rows := List.mem_of_mem_filter ho₂
    obtain ⟨r, hr₂, rfl⟩ := firstOccGo_sub [] (sortedRows rows) o ho₃
    exact ⟨r, mem_sortedRows.mp hr₂, rfl⟩

/-- The group names of the output are the chapter names that survive the
`any` guard, in first-encounter order. -/
theorem map_chapter_name_eq (rows : List Row) :
    (first_appearance_by_chapter rows).map (fun g => g.chapter_name) =
      (chapterNames (survivors rows)).filter
        (fun ch => (survivors rows).any (fun o => decide (o.chapter = ch))) := by
  rw [first_appearance_by_chapter]
  by_cases hr : rows = []
  · subst hr
    rfl
  · rw [if_neg hr, List.map_map]
    exact List.map_id _

/-- Every chapter name in the name stage passes the `any` guard. -/
theorem names_guard_true (rows : List Row) :
    ∀ ch ∈ chapterNames (survivors rows),
      ((survivors rows).any (fun o => decide (o.chapter = ch))) = true := by
  intro ch hch
  rcases (mem_firstNamesGo [] (survivors rows) ch).mp hch with h | ⟨o, ho, rfl⟩
  · simp at h
  · exact List.any_eq_true.mpr ⟨o, ho, by simp⟩

/-- The sorted per-chapter chunks flatten to a permutation of the
survivors. -/
theorem flat_chunks_perm (rows : List Row) :
    List.Perm
      (((chapterNames (survivors rows)).filter
          (fun ch => (survivors rows).any (fun o => decide (o.chapter = ch)))).flatMap
        (fun ch => (chapterCluster (survivors rows) ch).insertionSort occRel))
      (survivors rows) := by
  have hnodup : ((chapterNames (survivors rows)).filter
      (fun ch => (survivors rows).any (fun o => decide (o.chapter = ch)))).Nodup :=
    (nodup_firstNamesGo [] (survivors rows) (by simp)).filter _
  have hmem : ∀ o ∈ survivors rows,
      o.chapter ∈ (chapterNames (survivors rows)).filter
        (fun ch => (survivors rows).any (fun o₂ => decide (o₂.chapter = ch))) := by
    intro o ho
    refine List.mem_filter.mpr ⟨?_, List.any_eq_true.mpr ⟨o, ho, by simp⟩⟩
    exact (mem_firstNamesGo [] (survivors rows) o.chapter).mpr (Or.inr ⟨o, ho, rfl⟩)
  refine List.Perm.trans (flatMap_perm_mem _ _
    (fun ch => chapterCluster (survivors rows) ch) (fun ch _ => ?_)) ?_
  · exact List.perm_insertionSort occRel _
  · exact cluster_flatMap_perm (survivors rows) _ hnodup hmem

/-- All output entries, as the projection of the flattened chunks. -/
theorem allEntries_eq (rows : List Row) (hr : rows ≠ []) :
    allEntries (first_appearance_by_chapter rows) =
      (((chapterNames (survivors rows)).filter
          (fun ch => (survivors rows).any (fun o => decide (o.chapter = ch)))).flatMap
        (fun ch => (chapterCluster (survivors rows) ch).insertionSort occRel)).map
        toDisplay := by
  rw [first_appearance_by_chapter, if_neg hr, allEntries, List.flatMap_map]
  rw [List.map_flatMap]

/-- CLAIM C1.  For every input to the appearance reducer and every
`(term, subentry)` pair occurring in at least one row, the output contains
exactly one entry for that pair — the filter of all output entries is the
one-element list built from the first matching row of the sorted sequence —
and that row's sort key is at or below the key of every matching row, so the
kept entry carries the minimal row's page display. -/
theorem claim1_dedup_first_appearance (rows : List Row) (t s : String)
    (h : ∃ r ∈ rows, r.term = t ∧ r.subentry = s) :
    ∃ r, (sortedRows rows).find? (fun x => decide (x.term = t ∧ x.subentry = s)) = some r ∧
      r ∈ rows ∧ r.term = t ∧ r.subentry = s ∧
      (∀ b ∈ rows, b.term = t → b.subentry = s →
        keyLe (rowKey r) (rowKey b) = true) ∧
      (allEntries (first_appearance_by_chapter rows)).filter
        (fun e => decide (e.term = t ∧ e.subentry = s)) = [toDisplay (occOf r)] := by
  obtain ⟨r₀, hr₀, hp₀⟩ := h
  have hr : rows ≠ [] := by
    rintro rfl
    simp at hr₀
  have hsome : ((sortedRows rows).find?
      (fun x => decide (x.term = t ∧ x.subentry = s))).isSome :=
    List.find?_isSome.mpr ⟨r₀, mem_sortedRows.mpr hr₀, by simpa using hp₀⟩
  obtain ⟨r, hfind⟩ := Option.isSome_iff_exists.mp hsome
  have hpr : r.term = t ∧ r.subentry = s := by
    simpa using List.find?_some hfind
  have hrmem : r ∈ rows := mem_sortedRows.mp (List.mem_of_find?_eq_some hfind)
  refine ⟨r, hfind, hrmem, hpr.1, hpr.2, ?_, ?_⟩
  · intro b hb hbt hbs
    exact find?_min_of_sorted (sortedRows_sorted rows) hfind b
      (mem_sortedRows.mpr hb) (by simp [hbt, hbs])
  · have hsurv : (survivors rows).filter
        (fun o => decide (o.term = t ∧ o.subentry = s)) = [occOf r] := by
      rw [survivors, firstOccGo_filter_of_not_mem [] (sortedRows rows) (by simp), hfind]
      rfl
    rw [allEntries_eq rows hr]
    rw [List.filter_map]
    have hcomp : ((fun e : DisplayEntry => decide (e.term = t ∧ e.subentry = s)) ∘
        toDisplay) = (fun o : Occ => decide (o.term = t ∧ o.subentry = s)) := by
      funext o
      simp [toDisplay]
    rw [hcomp]
    have hperm := ((flat_chunks_perm rows).filter
      (fun o : Occ => decide (o.term = t ∧ o.subentry = s)))
    rw [hsurv] at hperm
    rw [List.perm_singleton.mp hperm]
    rfl

/-- CLAIM C4.  A chapter name appears as an output group exactly when some
surviving occurrence resolves to it; the groups appear in first-encounter
order over the deduplicated sorted sequence; and no output group is empty. -/
theorem claim4_chapter_completeness (rows : List Row) :
    ((first_appearance_by_chapter rows).map (fun g => g.chapter_name) =
      chapterNames (survivors rows)) ∧
    (∀ ch : String,
      (∃ g ∈ first_appearance_by_chapter rows, g.chapter_name = ch) ↔
        ∃ o ∈ survivors rows, o.chapter = ch) ∧
    (∀ g ∈ first_appearance_by_chapter rows, g.entries ≠ []) := by
  have hmap : (first_appearance_by_chapter rows).map (fun g => g.chapter_name) =
      chapterNames (survivors rows) := by
    rw [map_chapter_name_eq rows]
    exact List.filter_eq_self.mpr (names_guard_true rows)
  refine ⟨hmap, ?_, ?_⟩
  · intro ch
    constructor
    · rintro ⟨g, hg, rfl⟩
      have : g.chapter_name ∈ chapterNames (survivors rows) := by
        rw [← hmap]
        exact List.mem_map_of_mem _ hg
      rcases (mem_firstNamesGo [] (survivors rows) g.chapter_name).mp this with h | h
      · simp at h
      · exact h
    · rintro ⟨o, ho, rfl⟩
      have : o.chapter ∈ chapterNames (survivors rows) :=
        (mem_firstNamesGo [] (survivors rows) o.chapter).mpr (Or.inr ⟨o, ho, rfl⟩)
      rw [← hmap] at this
      obtain ⟨g, hg, hname⟩ := List.mem_map.mp this
      exact ⟨g, hg, hname⟩
  · intro g hg
    rw [first_appearance_by_chapter] at hg
    by_cases hr : rows = []
    · rw [if_pos hr] at hg
      simp at hg
    · rw [if_neg hr] at hg
      obtain ⟨ch, hch, rfl⟩ := List.mem_map.mp hg
      have hcond := (List.mem_filter.mp hch).2
      obtain ⟨o, ho, hdec⟩ := List.any_eq_true.mp hcond
      simp only
      intro hempty
      have : o ∈ chapterCluster (survivors rows) ch :=
        List.mem_filter.mpr ⟨ho, hdec⟩
      have h₂ : o ∈ (chapterCluster (survivors rows) ch).insertionSort occRel :=
        (List.mem_insertionSort occRel).mpr this
      rw [List.map_eq_nil_iff] at hempty
      rw [hempty] at h₂
      simp at h₂

/-- CLAIM C5.  The entries of every output chapter group are the projection
of a list of survivors sorted by `(start_page, term, subentry)`; in
particular their start pages are monotonically non-decreasing. -/
theorem claim5_entries_sorted (rows : List Row) (g : ChapterGroup)
    (hg : g ∈ first_appearance_by_chapter rows) :
    ∃ l : List Occ, g.entries = l.map toDisplay ∧ l.Pairwise occRel ∧
      l.Pairwise (fun a b => a.start ≤ b.start) := by
  rw [first_appearance_by_chapter] at hg
  by_cases hr : rows = []
  · rw [if_pos hr] at hg
    simp at hg
  · rw [if_neg hr] at hg
    obtain ⟨ch, _, rfl⟩ := List.mem_map.mp hg
    refine ⟨(chapterCluster (survivors rows) ch).insertionSort occRel, rfl, ?_, ?_⟩
    · haveI : IsTotal Occ occRel := ⟨occRel_total⟩
      haveI : IsTrans Occ occRel := ⟨fun _ _ _ h₁ h₂ => occRel_trans h₁ h₂⟩
      exact List.sorted_insertionSort occRel _
    · haveI : IsTotal Occ occRel := ⟨occRel_total⟩
      haveI : IsTrans Occ occRel := ⟨fun _ _ _ h₁ h₂ => occRel_trans h₁ h₂⟩
      exact (List.sorted_insertionSort occRel _).imp (fun h => occRel_start_le h)

/-- CLAIM C9.  When the EPUB resolver is called without a subheading index
(as the end-to-end EPUB pipeline calls it), every entry of every output
group has an empty subheading. -/
theorem claim9_no_subheadings (toc : List EpubTocEntry) (spine : List String)
    (f2c : List (String × String)) (entries : List IndexEntry)
    (g : ChapterGroup) (hg : g ∈ map_and_sort_epub toc spine f2c entries none)
    (e : DisplayEntry) (he : e ∈ g.entries) : e.subheading = "" := by
  obtain ⟨r, hr, rfl⟩ := mem_group_entries hg he
  rw [epubRows] at hr
  obtain ⟨it, _, hmem⟩ := List.mem_flatMap.mp hr
  obtain ⟨rf, _, rfl⟩ := List.mem_map.mp hmem
  rfl

/-- CLAIM C10.  Output chapter names are pairwise distinct, and grouping is
keyed on the chapter name alone: two rows carrying distinct chapter orders
but the same chapter title are merged into a single output group. -/
theorem claim10_distinct_names :
    (∀ rows : List Row,
      ((first_appearance_by_chapter rows).map (fun g => g.chapter_name)).Nodup) ∧
    first_appearance_by_chapter
        [⟨"a", "", "X", 10, 0, "", "10"⟩, ⟨"b", "", "X", 2, 5, "", "2"⟩] =
      [⟨"X", [⟨"b", "", "2", ""⟩, ⟨"a", "", "10", ""⟩]⟩] := by
  constructor
  · intro rows
    rw [map_chapter_name_eq rows]
    exact (nodup_firstNamesGo [] (survivors rows) (by simp)).filter _
  · decide

/-- Witness for C1 at a two-row input sharing the pair `("foo", "")`. -/
theorem claim1_witness :
    ∃ r, (sortedRows [⟨"foo", "", "A", 5, 1, "", "5"⟩, ⟨"foo", "", "B", 3, 0, "", "3"⟩]).find?
        (fun x => decide (x.term = "foo" ∧ x.subentry = "")) = some r ∧
      r ∈ [⟨"foo", "", "A", 5, 1, "", "5"⟩, ⟨"foo", "", "B", 3, 0, "", "3"⟩] ∧
      r.term = "foo" ∧ r.subentry = "" ∧
      (∀ b ∈ [⟨"foo", "", "A", 5, 1, "", "5"⟩, ⟨"foo", "", "B", 3, 0, "", "3"⟩],
        b.term = "foo" → b.subentry = "" → keyLe (rowKey r) (rowKey b) = true) ∧
      (allEntries (first_appearance_by_chapter
          [⟨"foo", "", "A", 5, 1, "", "5"⟩, ⟨"foo", "", "B", 3, 0, "", "3"⟩])).filter
        (fun e => decide (e.term = "foo" ∧ e.subentry = "")) = [toDisplay (occOf r)] :=
  claim1_dedup_first_appearance
    [⟨"foo", "", "A", 5, 1, "", "5"⟩, ⟨"foo", "", "B", 3, 0, "", "3"⟩] "foo" ""
    (by decide)

/-- Witness for C4's non-empty-group conjunct at a concrete input. -/
theorem claim4_witness :
    (⟨"B", [⟨"foo", "", "3", ""⟩]⟩ : ChapterGroup).entries ≠ [] :=
  (claim4_chapter_completeness
      [⟨"foo", "", "A", 5, 1, "", "5"⟩, ⟨"foo", "", "B", 3, 0, "", "3"⟩]).2.2
    ⟨"B", [⟨"foo", "", "3", ""⟩]⟩ (by decide)

/-- Witness for C5 at a concrete two-entry chapter group. -/
theorem claim5_witness :
    ∃ l : List Occ,
      (⟨"C", [⟨"a", "", "2", ""⟩, ⟨"b", "", "7", ""⟩]⟩ : ChapterGroup).entries =
        l.map toDisplay ∧ l.Pairwise occRel ∧
        l.Pairwise (fun a b => a.start ≤ b.start) :=
  claim5_entries_sorted
    [⟨"b", "", "C", 7, 0, "", "7"⟩, ⟨"a", "", "C", 2, 0, "", "2"⟩]
    ⟨"C", [⟨"a", "", "2", ""⟩, ⟨"b", "", "7", ""⟩]⟩ (by decide)

/-- Witness for C9 at a concrete EPUB input. -/
theorem claim9_witness :
    (⟨"foo", "", "5", ""⟩ : DisplayEntry).subheading = "" :=
  claim9_no_subheadings [⟨"T1", "c1.x", "c1.x"⟩] ["c1.x"] [("c1.x", "T1")]
    [⟨"foo", "", [Ref.pair "c1.x" 5]⟩]
    ⟨"T1", [⟨"foo", "", "5", ""⟩]⟩ (by decide)
    ⟨"foo", "", "5", ""⟩ (by decide)

/-! ## Dict lookups expressed as first-match searches -/

/-- With pairwise distinct keys the last-match lookup coincides with the
first-match search. -/
theorem find?_reverse_of_nodup {v : Type} :
    ∀ (l : List (String × v)), ((l.map (fun p => p.1)).Nodup) → ∀ k : String,
      l.reverse.find? (fun p => decide (p.1 = k)) = l.find? (fun p => decide (p.1 = k))
  | [], _, _ => rfl
  | x :: xs, hnd, k => by
    have h₂ : (x.1 :: xs.map (fun p => p.1)).Nodup := by simpa using hnd
    have hx : x.1 ∉ xs.map (fun p => p.1) := (List.nodup_cons.mp h₂).1
    have hxs : (xs.map (fun p => p.1)).Nodup := (List.nodup_cons.mp h₂).2
    rw [List.reverse_cons, List.find?_append]
    by_cases hk : x.1 = k
    · have hnone : xs.find? (fun p => decide (p.1 = k)) = none := by
        rw [List.find?_eq_none]
        intro p hp
        simp only [decide_eq_true_eq]
        intro hpk
        refine hx ?_
        rw [hk, ← hpk]
        exact List.mem_map_of_mem _ hp
      have hnoner : xs.reverse.find? (fun p => decide (p.1 = k)) = none := by
        rw [List.find?_eq_none] at hnone ⊢
        intro p hp
        exact hnone p (List.mem_reverse.mp hp)
      rw [hnoner, List.find?_cons_of_pos _ (by simpa using hk)]
      simp [hk]
    · rw [find?_reverse_of_nodup xs hxs k]
      rw [List.find?_cons_of_neg _ (by simpa using hk)]
      simp [hk]

/-- The lookup `dictGet` with pairwise distinct keys is the first matching pair's
value. -/
theorem dictGet_eq_of_nodup {v : Type} (d : List (String × v))
    (hnd : (d.map (fun p => p.1)).Nodup) (k : String) :
    dictGet d k = (d.find? (fun p => decide (p.1 = k))).map (fun p => p.2) := by
  rw [dictGet, find?_reverse_of_nodup d hnd k]

/-- The `file_to_chapter` lookup is the first TOC entry with the matching
file basename (when the TOC carries no duplicate basenames). -/
theorem dictGet_fileToChapterOf (toc : List EpubTocEntry)
    (hnd : (toc.map (fun e => e.base)).Nodup) (b : String) :
    dictGet (fileToChapterOf toc) b =
      (toc.find? (fun e => decide (e.base = b))).map (fun e => e.title) := by
  rw [fileToChapterOf, dictGet_eq_of_nodup _ (by simpa [List.map_map, Function.comp] using hnd)]
  rw [List.find?_map]
  rw [Option.map_map]
  rfl

/-- The first-wins spine dict looks up the first spine position whose
basename matches. -/
theorem basenameToOrderGo_lookup (b : String) :
    ∀ (spine : List String) (acc : List (String × Nat)) (i : Nat),
      dictGet (basenameToOrderGo acc i spine) b =
        (dictGet acc b).or
          ((spine.map pathBasename).findIdx? (fun x => decide (x = b)) i)
  | [], acc, i => by simp [basenameToOrderGo]
  | href :: rest, acc, i => by
    rw [basenameToOrderGo]
    simp only [List.map_cons, List.findIdx?_cons]
    by_cases hin : ((acc.find? (fun p => decide (p.1 = pathBasename href))).isSome)
    · rw [if_pos hin, basenameToOrderGo_lookup b rest acc (i + 1)]
      by_cases hb : pathBasename href = b
      · rw [if_pos (by simpa using hb)]
        have hsome : (dictGet acc b).isSome := by
          rw [dictGet, Option.isSome_map']
          rw [List.find?_isSome] at hin ⊢
          obtain ⟨p, hp, hpb⟩ := hin
          exact ⟨p, List.mem_reverse.mpr hp, by
            simp only [decide_eq_true_eq] at hpb ⊢
            rw [hpb, hb]⟩
        obtain ⟨w, hw⟩ := Option.isSome_iff_exists.mp hsome
        rw [hw]
        rfl
      · rw [if_neg (by simpa using hb)]
    · rw [if_neg hin, basenameToOrderGo_lookup b rest (acc ++ [(pathBasename href, i)]) (i + 1)]
      have hrev : (acc ++ [(pathBasename href, i)]).reverse =
          (pathBasename href, i) :: acc.reverse := by
        rw [List.reverse_append]
        rfl
      by_cases hb : pathBasename href = b
      · rw [if_pos (by simpa using hb)]
        have hnone : dictGet acc b = none := by
          rw [dictGet]
          have : acc.find? (fun p => decide (p.1 = pathBasename href)) = none := by
            cases h : acc.find? (fun p => decide (p.1 = pathBasename href)) with
            | none => rfl
            | some p => exact absurd (by rw [h]; rfl) hin
          rw [List.find?_eq_none] at this
          have hrnone : acc.reverse.find? (fun p => decide (p.1 = b)) = none := by
            rw [List.find?_eq_none]
            intro p hp
            have := this p (List.mem_reverse.mp hp)
            simpa [hb] using this
          rw [hrnone]
          rfl
        have hget : dictGet (acc ++ [(pathBasename href, i)]) b = some i := by
          rw [dictGet, hrev, List.find?_cons_of_pos _ (by simpa using hb)]
          rfl
        rw [hget, hnone]
        rfl
      · have hget : dictGet (acc ++ [(pathBasename href, i)]) b = dictGet acc b := by
          rw [dictGet, hrev, List.find?_cons_of_neg _ (by simpa using hb), dictGet]
        rw [hget, if_neg (by simpa using hb)]

/-- The dict `basename_to_order` looks up the first spine index whose basename
matches. -/
theorem basenameToOrder_lookup (spine : List String) (b : String) :
    dictGet (basenameToOrder spine) b =
      (spine.map pathBasename).findIdx? (fun x => decide (x = b)) := by
  rw [basenameToOrder, basenameToOrderGo_lookup b spine [] 0]
  rfl

/-- COUNTEREXAMPLE to C2 as stated.  One TOC entry `"Chap A"` for file
`a.x` (position 0 in the TOC) and an empty spine: the reference to `a.x`
matches that TOC entry and receives its title, yet its chapter order is the
sentinel `9999`, not the matching entry's TOC position `0` — the order comes
from the spine, not the TOC. -/
theorem claim2_counterexample :
    (epubRows [] (fileToChapterOf [⟨"Chap A", "a.x", "a.x"⟩])
        [⟨"t", "", [Ref.pair "a.x" 5]⟩] none).map
      (fun row => (row.chapter, row.order)) = [("Chap A", 9999)] ∧
    (9999 : Nat) ≠ 0 := by
  constructor
  · rfl
  · decide

/-- CLAIM C2 (amended).  Every resolved EPUB row takes its chapter name
from the first TOC entry whose file basename equals the reference's locator
(`"Other"` when none matches) and its chapter order from the first spine
position whose basename equals the locator (`9999` when the locator is
absent from the spine); the two lookups are independent. -/
theorem claim2_epub_resolution (toc : List EpubTocEntry) (spine : List String)
    (entries : List IndexEntry)
    (subIdx : Option (List (String × List (Int × String))))
    (hnd : (toc.map (fun e => e.base)).Nodup) :
    ∀ row ∈ epubRows spine (fileToChapterOf toc) entries subIdx,
      ∃ it ∈ entries, ∃ rf ∈ it.refs, rf.base ≠ "" ∧
        row.term = pyStrip it.term ∧ row.subentry = pyStrip it.subentry ∧
        row.start = rf.start ∧
        row.chapter =
          ((toc.find? (fun e => decide (e.base = rf.base))).map
            (fun e => e.title)).getD "Other" ∧
        row.order =
          ((spine.map pathBasename).findIdx?
            (fun x => decide (x = rf.base))).getD 9999 := by
  intro row hrow
  rw [epubRows] at hrow
  obtain ⟨it, hit, hmem⟩ := List.mem_flatMap.mp hrow
  obtain ⟨rf, hrf, rfl⟩ := List.mem_map.mp hmem
  have hrf₂ := List.mem_filter.mp hrf
  refine ⟨it, hit, rf, hrf₂.1, by simpa using hrf₂.2, rfl, rfl, rfl, ?_, ?_⟩
  · show (dictGet (fileToChapterOf toc) rf.base).getD "Other" = _
    rw [dictGet_fileToChapterOf toc hnd rf.base]
  · show (dictGet (basenameToOrder spine) rf.base).getD 9999 = _
    rw [basenameToOrder_lookup spine rf.base]

/-- Witness for the amended C2 at a one-chapter book. -/
theorem claim2_witness :
    ∃ it ∈ [(⟨"t", "", [Ref.pair "a.x" 5]⟩ : IndexEntry)], ∃ rf ∈ it.refs,
      rf.base ≠ "" ∧
      (⟨"t", "", "Chap A", 5, 0, "", "5"⟩ : Row).term = pyStrip it.term ∧
      (⟨"t", "", "Chap A", 5, 0, "", "5"⟩ : Row).subentry = pyStrip it.subentry ∧
      (⟨"t", "", "Chap A", 5, 0, "", "5"⟩ : Row).start = rf.start ∧
      (⟨"t", "", "Chap A", 5, 0, "", "5"⟩ : Row).chapter =
        (([(⟨"Chap A", "a.x", "a.x"⟩ : EpubTocEntry)].find?
          (fun e => decide (e.base = rf.base))).map (fun e => e.title)).getD "Other" ∧
      (⟨"t", "", "Chap A", 5, 0, "", "5"⟩ : Row).order =
        ((["a.x"].map pathBasename).findIdx?
          (fun x => decide (x = rf.base))).getD 9999 :=
  claim2_epub_resolution [⟨"Chap A", "a.x", "a.x"⟩] ["a.x"]
    [⟨"t", "", [Ref.pair "a.x" 5]⟩] none (by decide)
    ⟨"t", "", "Chap A", 5, 0, "", "5"⟩ (by decide)

/-- The chapter-search loop returns the fallback when no TOC range contains
the page. -/
theorem findPdfChapter_unmatched (start : Int) :
    ∀ (toc : List PdfTocEntry) (i : Nat),
      (∀ e ∈ toc, ¬ (e.startPage ≤ start ∧ start ≤ e.endPage)) →
      findPdfChapter start toc i = ("Other", 9999)
  | [], _, _ => rfl
  | ch :: rest, i, h => by
    rw [findPdfChapter, if_neg (h ch (List.mem_cons_self _ _))]
    exact findPdfChapter_unmatched start rest (i + 1)
      (fun e he => h e (List.mem_cons_of_mem _ he))

/-- The chapter-search loop returns either the fallback order or an index
below the end of the TOC. -/
theorem findPdfChapter_order (start : Int) :
    ∀ (toc : List PdfTocEntry) (i : Nat),
      (findPdfChapter start toc i).2 = 9999 ∨
        (findPdfChapter start toc i).2 < i + toc.length
  | [], _ => Or.inl rfl
  | ch :: rest, i => by
    rw [findPdfChapter]
    by_cases h : ch.startPage ≤ start ∧ start ≤ ch.endPage
    · rw [if_pos h]
      exact Or.inr (by simp)
    · rw [if_neg h]
      rcases findPdfChapter_order start rest (i + 1) with h₂ | h₂
      · exact Or.inl h₂
      · exact Or.inr (by simp only [List.length_cons]; omega)

/-- COUNTEREXAMPLE to C3 as stated.  A spine file `x.x` missing from the
TOC resolves to `"Other"` but with spine order `0`, so the `"Other"` group
sorts *first*, not last; and a reference with an empty locator produces no
row at all (three references, two rows). -/
theorem claim3_counterexample :
    (map_and_sort_epub [⟨"Chap A", "a.x", "a.x"⟩] ["x.x", "a.x"]
        (fileToChapterOf [⟨"Chap A", "a.x", "a.x"⟩])
        [⟨"t1", "", [Ref.pair "x.x" 5]⟩, ⟨"t2", "", [Ref.pair "a.x" 7]⟩,
         ⟨"t3", "", [Ref.pair "" 3]⟩] none).map (fun g => g.chapter_name) =
      ["Other", "Chap A"] ∧
    (epubRows ["x.x", "a.x"] (fileToChapterOf [⟨"Chap A", "a.x", "a.x"⟩])
        [⟨"t1", "", [Ref.pair "x.x" 5]⟩, ⟨"t2", "", [Ref.pair "a.x" 7]⟩,
         ⟨"t3", "", [Ref.pair "" 3]⟩] none).length = 2 := by
  constructor
  · rfl
  · rfl

/-- CLAIM C3 (amended).  On the PDF path every reference yields a row; on
the EPUB path every reference with a non-empty locator yields a row and
empty-locator references are dropped.  An unmatched reference resolves to
chapter `"Other"`; on the PDF path its order is the sentinel `9999`, which
exceeds every matched order whenever the TOC holds at most 9999 entries,
while on the EPUB path the order lookup is independent of the chapter match
(the spine position when the file occurs in the spine, `9999` otherwise). -/
theorem claim3_unmatched_references :
    (∀ (toc : List PdfTocEntry) (entries : List IndexEntry),
      (pdfRows toc entries).length =
        (entries.map (fun it => it.refs.length)).sum) ∧
    (∀ (spine : List String) (f2c : List (String × String))
        (entries : List IndexEntry)
        (subIdx : Option (List (String × List (Int × String)))),
      (epubRows spine f2c entries subIdx).length =
        (entries.map (fun it =>
          (it.refs.filter (fun rf => decide (rf.base ≠ ""))).length)).sum) ∧
    (∀ (toc : List PdfTocEntry) (t s : String) (rf : Ref),
      (∀ e ∈ toc, ¬ (e.startPage ≤ rf.start ∧ rf.start ≤ e.endPage)) →
      (resolvePdfRef toc t s rf).chapter = "Other" ∧
        (resolvePdfRef toc t s rf).order = 9999) ∧
    (∀ (toc : List PdfTocEntry) (t s : String) (rf : Ref),
      (resolvePdfRef toc t s rf).order = 9999 ∨
        (resolvePdfRef toc t s rf).order < toc.length) ∧
    (∀ (f2c : List (String × String)) (spineDict : List (String × Nat))
        (subIdx : Option (List (String × List (Int × String))))
        (t s : String) (rf : Ref),
      dictGet f2c rf.base = none →
      (resolveEpubRef f2c spineDict subIdx t s rf).chapter = "Other" ∧
        (resolveEpubRef f2c spineDict subIdx t s rf).order =
          (dictGet spineDict rf.base).getD 9999) := by
  refine ⟨?_, ?_, ?_, ?_, ?_⟩
  · intro toc entries
    rw [pdfRows, List.length_flatMap]
    congr 1
    exact List.map_congr_left (fun it _ => by simp [Function.comp])
  · intro spine f2c entries subIdx
    rw [epubRows, List.length_flatMap]
    congr 1
    exact List.map_congr_left (fun it _ => by simp [Function.comp])
  · intro toc t s rf h
    constructor
    · show (findPdfChapter rf.start toc 0).1 = "Other"
      rw [findPdfChapter_unmatched rf.start toc 0 h]
    · show (findPdfChapter rf.start toc 0).2 = 9999
      rw [findPdfChapter_unmatched rf.start toc 0 h]
  · intro toc t s rf
    have := findPdfChapter_order rf.start toc 0
    simpa using this
  · intro f2c spineDict subIdx t s rf h
    constructor
    · show (dictGet f2c rf.base).getD "Other" = "Other"
      rw [h]
      rfl
    · rfl

/-- Witness for the amended C3: an unmatched EPUB reference resolves to
`"Other"` with the order of its spine lookup. -/
theorem claim3_witness :
    (resolveEpubRef [] [("x.x", 0)] none "t" "" (Ref.pair "q.x" 5)).chapter = "Other" ∧
    (resolveEpubRef [] [("x.x", 0)] none "t" "" (Ref.pair "q.x" 5)).order =
      (dictGet [("x.x", 0)] (Ref.pair "q.x" 5).base).getD 9999 :=
  claim3_unmatched_references.2.2.2.2 [] [("x.x", 0)] none "t" ""
    (Ref.pair "q.x" 5) (by decide)

/-- The digit fold computes the base-10 value of the digit string. -/
theorem natOfDigits_aux :
    ∀ (ds : List Char) (acc : Nat),
      ds.foldl (fun n c => n * 10 + (c.toNat - 48)) acc =
        acc * 10 ^ ds.length +
          Nat.ofDigits 10 ((ds.map (fun c => (c.toNat - 48 : Nat))).reverse)
  | [], acc => by simp [Nat.ofDigits]
  | c :: ds, acc => by
    simp only [List.foldl_cons, List.map_cons, List.reverse_cons, List.length_cons]
    rw [natOfDigits_aux ds (acc * 10 + (c.toNat - 48))]
    rw [Nat.ofDigits_append]
    simp only [List.length_reverse, List.length_map, Nat.ofDigits_singleton]
    ring

/-- The fold `natOfDigits` agrees with the most-significant-first reading of the
digit values. -/
theorem natOfDigits_eq (ds : List Char) :
    natOfDigits ds =
      Nat.ofDigits 10 ((ds.map (fun c => (c.toNat - 48 : Nat))).reverse) := by
  rw [natOfDigits, natOfDigits_aux ds 0]
  simp

/-- COUNTEREXAMPLE to C6 as stated.  `"IX"` is not one of the lowercase
roman numerals, so the claim sends it through digit-stripping to `0`; the
code lower-cases first and returns `9`. -/
theorem claim6_counterexample :
    claim6_as_stated "IX" = 0 ∧ normalize_page "IX" = 9 ∧ "IX" ∉ romanKeys := by
  refine ⟨rfl, rfl, by decide⟩

/-- CLAIM C6 (amended).  Page-token normalization first trims and
lower-cases the token; the result then maps through the roman-numeral table
`i`–`xx` when it occurs there, and otherwise strips the non-digit characters
and reads the remaining digits (`0` when nothing remains); in particular
`"ix"`, `"xi"`, `"xii"` map to 9, 11, 12 and `"N/A"` maps to 0. -/
theorem claim6_normalization :
    (∀ s : String, normalize_page s = claim6_amended_spec s) ∧
    normalize_page "ix" = 9 ∧ normalize_page "xi" = 11 ∧
    normalize_page "xii" = 12 ∧ normalize_page "N/A" = 0 := by
  refine ⟨?_, rfl, rfl, rfl, rfl⟩
  intro s
  rw [normalize_page, claim6_amended_spec]
  rw [dictGet_eq_of_nodup ROMAN_TO_INT (by decide) (pyLower (pyStrip s))]
  cases h : ROMAN_TO_INT.find? (fun p => decide (p.1 = pyLower (pyStrip s))) with
  | some p => rfl
  | none =>
    show natOfDigits ((pyLower (pyStrip s)).data.filter isDigitChar) =
      specDigitsValue (pyLower (pyStrip s))
    rw [specDigitsValue, natOfDigits_eq]

/-! ## Shape facts about the JSON extraction -/

/-- A parse that starts at a `[` produces an array value. -/
theorem parseValue_bracket_arr (k : Nat) (rest : List Char) (v : Json) (r : List Char)
    (h : parseValue (k + 1) ('[' :: rest) = some (v, r)) : ∃ l, v = Json.arr l := by
  rw [parseValue] at h
  rw [if_pos rfl] at h
  split at h
  · obtain ⟨rfl, rfl⟩ : Json.arr [] = v ∧ _ = r := by simpa using h
    exact ⟨[], rfl⟩
  · split at h
    · rename_i elems r₂ _
      obtain ⟨rfl, rfl⟩ : Json.arr elems = v ∧ r₂ = r := by simpa using h
      exact ⟨elems, rfl⟩
    · exact absurd h (by simp)

/-- A successful `loads` of text whose first character is `[` is an
array. -/
theorem loads_head_bracket (s : String) (v : Json) (hhead : s.data.head? = some '[')
    (hloads : loads s = some v) : ∃ l, v = Json.arr l := by
  obtain ⟨rest, hdata⟩ : ∃ rest, s.data = '[' :: rest := by
    cases h : s.data with
    | nil => rw [h] at hhead; simp at hhead
    | cons c cs =>
      rw [h] at hhead
      simp at hhead
      exact ⟨cs, by rw [hhead]⟩
  rw [loads, hdata] at hloads
  have hws : skipWs ('[' :: rest) = '[' :: rest := rfl
  rw [hws] at hloads
  obtain ⟨k, hk⟩ : ∃ k, 4 * ('[' :: rest).length + 16 = k + 1 :=
    ⟨4 * ('[' :: rest).length + 15, by omega⟩
  rw [hk] at hloads
  split at hloads
  · rename_i v₂ rest₂ heq
    split at hloads
    · obtain rfl : v₂ = v := by simpa using hloads
      exact parseValue_bracket_arr k rest v₂ rest₂ heq
    · exact absurd hloads (by simp)
  · exact absurd hloads (by simp)

/-- A fenced chunk only parses when it starts with `[`, so a successful
fenced extraction is an array. -/
theorem tryFencedParts_arr :
    ∀ (parts : List (List Char)) (v : Json), tryFencedParts parts = some v →
      ∃ l, v = Json.arr l
  | [], v, h => by simp [tryFencedParts] at h
  | part :: rest, v, h => by
    rw [tryFencedParts] at h
    split at h
    · split at h
      · rename_i hhead
        split at h
        · rename_i v₂ hloads
          obtain rfl : v₂ = v := by simpa using h
          exact loads_head_bracket _ v₂ (by simpa using hhead) hloads
        · exact tryFencedParts_arr rest v h
      · exact tryFencedParts_arr rest v h
    · split at h
      · rename_i hhead
        split at h
        · rename_i v₂ hloads
          obtain rfl : v₂ = v := by simpa using h
          exact loads_head_bracket _ v₂ (by simpa using hhead) hloads
        · exact tryFencedParts_arr rest v h
      · exact tryFencedParts_arr rest v h

/-- The head of a non-empty `dropWhile` result fails the predicate. -/
theorem dropWhile_head_false {α : Type} {p : α → Bool} :
    ∀ (l : List α) {c : α} {cs : List α}, l.dropWhile p = c :: cs → p c = false
  | [], c, cs, h => by simp at h
  | x :: xs, c, cs, h => by
    rw [List.dropWhile_cons] at h
    split at h
    · exact dropWhile_head_false xs h
    · rename_i hpx
      obtain ⟨rfl, rfl⟩ := List.cons.inj h
      simpa using hpx

/-- A successful bracket scan starts with the first character scanned. -/
theorem bracketScan_shape :
    ∀ (fuel : Nat) (c : Char) (rest : List Char) (depth : Nat) (acc out : List Char),
      bracketScan fuel (c :: rest) depth acc = some out →
      ∃ t, out = acc.reverse ++ c :: t
  | 0, _, _, _, _, _, h => by simp [bracketScan] at h
  | fuel + 1, c, rest, depth, acc, out, h => by
    rw [bracketScan] at h
    split at h
    · cases rest with
      | nil =>
        cases fuel with
        | zero => simp [bracketScan] at h
        | succ fuel₂ => simp [bracketScan] at h
      | cons c₂ rest₂ =>
        obtain ⟨t, ht⟩ := bracketScan_shape fuel c₂ rest₂ (depth + 1) (c :: acc) out h
        refine ⟨c₂ :: t, ?_⟩
        rw [ht, List.reverse_cons, List.append_assoc]
        rfl
    · split at h
      · split at h
        · refine ⟨[], ?_⟩
          obtain rfl := Option.some.inj h
          rw [List.reverse_cons]
        · cases rest with
          | nil =>
            cases fuel with
            | zero => simp [bracketScan] at h
            | succ fuel₂ => simp [bracketScan] at h
          | cons c₂ rest₂ =>
            obtain ⟨t, ht⟩ := bracketScan_shape fuel c₂ rest₂ (depth - 1) (c :: acc) out h
            refine ⟨c₂ :: t, ?_⟩
            rw [ht, List.reverse_cons, List.append_assoc]
            rfl
      · cases rest with
        | nil =>
          cases fuel with
          | zero => simp [bracketScan] at h
          | succ fuel₂ => simp [bracketScan] at h
        | cons c₂ rest₂ =>
          obtain ⟨t, ht⟩ := bracketScan_shape fuel c₂ rest₂ depth (c :: acc) out h
          refine ⟨c₂ :: t, ?_⟩
          rw [ht, List.reverse_cons, List.append_assoc]
          rfl

/-- COUNTEREXAMPLE to C7 as stated.  The text `"42"` contains no bracketed
array, yet extraction returns the integer `42` (the direct parse of the
whole text), not an empty list; and in `"x [1, ] then [2]"` the later
well-formed array `[2]` is never found — the scan gives up after the first
bracket-balanced candidate `[1, ]` fails to parse. -/
theorem claim7_counterexample :
    extract_json_from_response "42" = Json.num 42 ∧
    extract_json_from_response "x [1, ] then [2]" = Json.arr [] ∧
    loads "[2]" = some (Json.arr [Json.num 2]) ∧
    Json.num 42 ≠ Json.arr [] := by
  refine ⟨rfl, rfl, rfl, ?_⟩
  intro h
  exact Json.noConfusion h

/-- CLAIM C7 (amended).  JSON extraction is total and its result is always
a JSON array — obtained from a fenced chunk, or from the bracket-balanced
substring starting at the first `[`, or the empty-list fallback — except in
one case: when the entire (stripped) response itself parses as JSON, that
value is returned as-is, array or not. -/
theorem claim7_extraction_shape (t : String) :
    (∃ l, extract_json_from_response t = Json.arr l) ∨
    (∃ v, loads (pyStrip t) = some v ∧ extract_json_from_response t = v) := by
  rw [extract_json_from_response]
  split
  · rename_i v hfen
    split at hfen
    · left
      obtain ⟨l, rfl⟩ := tryFencedParts_arr _ v hfen
      exact ⟨l, rfl⟩
    · exact absurd hfen (by simp)
  · split
    · rename_i v hload
      right
      exact ⟨v, hload, rfl⟩
    · split
      · left
        exact ⟨[], rfl⟩
      · rename_i hsub
        split
        · rename_i cand hscan
          split
          · rename_i v hcand
            left
            cases hdw : List.dropWhile (fun c => decide (c ≠ '[')) (pyStrip t).data with
            | nil => exact absurd hdw hsub
            | cons c cs =>
              have hc : c = '[' := by
                have h₂ := dropWhile_head_false _ hdw
                simpa using h₂
              subst hc
              rw [hdw] at hscan
              obtain ⟨tail, htail⟩ := bracketScan_shape _ '[' cs 0 [] cand hscan
              obtain ⟨l, rfl⟩ := loads_head_bracket ⟨cand⟩ v (by rw [htail]; rfl) hcand
              exact ⟨l, rfl⟩
          · left
            exact ⟨[], rfl⟩
        · left
          exact ⟨[], rfl⟩

theorem structure_index_records_filtering (data : List Json) :
    ∀ (out : List IdxRec), structure_index_records data = Except.ok out →
      ∀ rec ∈ out, ∃ fields, Json.obj fields ∈ data ∧
        truthy (pyOr (pyGet fields "term")
          (pyOr (pyGet fields "title") (Json.str ""))) = true := by
  induction data with
  | nil =>
    intro out h rec hrec
    obtain rfl : ([] : List IdxRec) = out := Except.ok.inj h
    simp at hrec
  | cons item rest ih =>
    intro out h rec hrec
    cases item with
    | obj fields =>
      rw [structure_index_records] at h
      simp only [bind, Except.bind, pure, Except.pure] at h
      split at h
      · exact Except.noConfusion h
      · split at h
        · exact Except.noConfusion h
        · split at h
          · exact Except.noConfusion h
          · rename_i out₂ hrec₂
            split at h
            · rename_i htruthy
              have hEq := Except.ok.inj h
              rw [← hEq] at hrec
              rcases List.mem_cons.mp hrec with rfl | hmem
              · exact ⟨fields, List.mem_cons_self _ _, htruthy⟩
              · obtain ⟨f₂, hf₂, ht₂⟩ := ih out₂ hrec₂ rec hmem
                exact ⟨f₂, List.mem_cons_of_mem _ hf₂, ht₂⟩
            · have hEq := Except.ok.inj h
              rw [← hEq] at hrec
              obtain ⟨f₂, hf₂, ht₂⟩ := ih out₂ hrec₂ rec hrec
              exact ⟨f₂, List.mem_cons_of_mem _ hf₂, ht₂⟩
    | null =>
      obtain ⟨f₂, hf₂, ht₂⟩ := ih out h rec hrec
      exact ⟨f₂, List.mem_cons_of_mem _ hf₂, ht₂⟩
    | bool b =>
      obtain ⟨f₂, hf₂, ht₂⟩ := ih out h rec hrec
      exact ⟨f₂, List.mem_cons_of_mem _ hf₂, ht₂⟩
    | num n =>
      obtain ⟨f₂, hf₂, ht₂⟩ := ih out h rec hrec
      exact ⟨f₂, List.mem_cons_of_mem _ hf₂, ht₂⟩
    | numOther s =>
      obtain ⟨f₂, hf₂, ht₂⟩ := ih out h rec hrec
      exact ⟨f₂, List.mem_cons_of_mem _ hf₂, ht₂⟩
    | str s =>
      obtain ⟨f₂, hf₂, ht₂⟩ := ih out h rec hrec
      exact ⟨f₂, List.mem_cons_of_mem _ hf₂, ht₂⟩
    | arr l =>
      obtain ⟨f₂, hf₂, ht₂⟩ := ih out h rec hrec
      exact ⟨f₂, List.mem_cons_of_mem _ hf₂, ht₂⟩

theorem structure_toc_records_length (last_page : Int) (data : List Json) :
    ∀ (out : List TocRec), structure_toc_records last_page data = Except.ok out →
      out.length = data.countP (fun item =>
        match item with | Json.obj _ => true | _ => false) := by
  induction data with
  | nil =>
    intro out h
    obtain rfl : ([] : List TocRec) = out := Except.ok.inj h
    rfl
  | cons item rest ih =>
    intro out h
    cases item with
    | obj fields =>
      rw [structure_toc_records] at h
      simp only [bind, Except.bind, pure, Except.pure] at h
      repeat' split at h
      all_goals
        first
        | exact Except.noConfusion h
        | (rename_i out₂ hrec₂
           have hEq := Except.ok.inj h
           rw [← hEq]
           simp only [List.length_cons, List.countP_cons]
           rw [ih out₂ hrec₂]
           simp)
    | null => simp [List.countP_cons, ih out h]
    | bool b => simp [List.countP_cons, ih out h]
    | num n => simp [List.countP_cons, ih out h]
    | numOther s => simp [List.countP_cons, ih out h]
    | str s => simp [List.countP_cons, ih out h]
    | arr l => simp [List.countP_cons, ih out h]

/-- COUNTEREXAMPLE to C8 as stated.  A TOC record lacking a name is *kept*
with an empty name (the TOC loop has no filter), and a whitespace-only term
survives the index filter and is stripped to the empty string, so records
with empty name/term do appear in the structured outputs. -/
theorem claim8_counterexample :
    structure_toc_records 500 [Json.obj [("start_page", Json.num 3)]] =
      Except.ok [⟨"", 3, 500⟩] ∧
    structure_index_records
        [Json.obj [("term", Json.str " "), ("pages", Json.arr [Json.num 3])]] =
      Except.ok [⟨"", "", [(none, 3)]⟩] :=
  ⟨rfl, rfl⟩

/-- CLAIM C8 (amended).  Index post-processing keeps a record only when its
`term` (or `title` fallback) is truthy, so records lacking both are
discarded — though a whitespace-only term survives and is stripped to the
empty string; TOC post-processing performs no name filtering at all: every
dict record that converts without error is kept, name or no name. -/
theorem claim8_record_filtering :
    (∀ (data : List Json) (out : List IdxRec),
      structure_index_records data = Except.ok out →
      ∀ rec ∈ out, ∃ fields, Json.obj fields ∈ data ∧
        truthy (pyOr (pyGet fields "term")
          (pyOr (pyGet fields "title") (Json.str ""))) = true) ∧
    (∀ (data : List Json) (last_page : Int) (out : List TocRec),
      structure_toc_records last_page data = Except.ok out →
      out.length = data.countP (fun item =>
        match item with | Json.obj _ => true | _ => false)) :=
  ⟨fun data => structure_index_records_filtering data,
   fun data last_page => structure_toc_records_length last_page data⟩

/-- Witness for the amended C8: the TOC loop keeps the single name-less
dict record. -/
theorem claim8_witness :
    ([(⟨"", 3, 500⟩ : TocRec)] : List TocRec).length =
      ([Json.obj [("start_page", Json.num 3)]] : List Json).countP
        (fun item => match item with | Json.obj _ => true | _ => false) :=
  claim8_record_filtering.2 [Json.obj [("start_page", Json.num 3)]] 500
    [⟨"", 3, 500⟩] rfl
